import Mathlib

/-!
# YAML codec of the ordered map (`yaml.go`)

A shallow embedding of `MarshalYAML`, `UnmarshalYAML` and
`tryDecodeToOrderedMap` from `yaml.go`, with the properties of the codec
proved about it.

* Go's multiple return values `(value, error)` are pairs whose second
  component is `none` for a nil error.
* A method that mutates its receiver returns the new receiver.
* The calls into `gopkg.in/yaml.v3` (`(*Node).Encode`, `(*Node).Decode`) are
  parameters of the embedding, collected in `Yaml`.
* The ordered map itself (`New`, `Set`, `Oldest`, `Next`, the storage
  initialiser) lives outside `yaml.go`; it is modelled from its contract.
-/

namespace orderedmap

/-! ## Go values used by the codec -/

/-- Go `error` values, identified by their message. -/
abbrev Error := String

/-- The type `yaml.Kind` (a `uint32`). -/
abbrev Kind := Nat

/-- The constant `yaml.DocumentNode`. -/
def DocumentNode : Kind := 1
/-- The constant `yaml.SequenceNode`. -/
def SequenceNode : Kind := 2
/-- The constant `yaml.MappingNode`. -/
def MappingNode : Kind := 4
/-- The constant `yaml.ScalarNode`. -/
def ScalarNode : Kind := 8
/-- The constant `yaml.AliasNode`. -/
def AliasNode : Kind := 16

/-- The struct `yaml.Node`, with the fields the codec and its callers look
at: `Kind`, `Style`, `Tag`, `Value` and `Content`. -/
inductive Node where
  | mk (kind : Kind) (style : Nat) (tag : String) (value : String) (content : List Node)

/-- Field `Kind` of a node. -/
def Node.Kind : Node → Kind
  | .mk kind _ _ _ _ => kind

/-- Field `Style` of a node. -/
def Node.Style : Node → Nat
  | .mk _ style _ _ _ => style

/-- Field `Tag` of a node. -/
def Node.Tag : Node → String
  | .mk _ _ tag _ _ => tag

/-- Field `Value` of a node: the literal payload of a scalar. -/
def Node.Value : Node → String
  | .mk _ _ _ value _ => value

/-- Field `Content` of a node: its children. -/
def Node.Content : Node → List Node
  | .mk _ _ _ _ content => content

/-- The statement `node.Content = append(node.Content, nodes...)`. -/
def Node.appendContent : Node → List Node → Node
  | .mk kind style tag value content, nodes => .mk kind style tag value (content ++ nodes)

/-- The UTF-8 encoding of one character, as the list of its bytes. -/
def utf8Bytes (c : Char) : List Nat :=
  let v := c.toNat
  if v < 0x80 then [v]
  else if v < 0x800 then [0xC0 + v / 0x40, 0x80 + v % 0x40]
  else if v < 0x10000 then [0xE0 + v / 0x1000, 0x80 + v / 0x40 % 0x40, 0x80 + v % 0x40]
  else [0xF0 + v / 0x40000, 0x80 + v / 0x1000 % 0x40, 0x80 + v / 0x40 % 0x40, 0x80 + v % 0x40]

/-- The conversion `[]byte(s)`: the bytes of a string, its UTF-8 encoding. -/
def bytesOf (s : String) : List Nat :=
  s.data.flatMap utf8Bytes

/-- The function `bytes.Equal`. -/
def bytesEqual (a b : List Nat) : Bool :=
  decide (a = b)

/-- Modelled from the spec: `JSONNullBytes` is declared outside `yaml.go`; it
returns the canonical null token, the four bytes of the literal `null`. -/
def JSONNullBytes : List Nat := [110, 117, 108, 108]

/-! ## The ordered map (collaborator of the codec) -/

/-- An entry of the map: the struct `Pair` with its fields `Key` and `Value`. -/
structure Pair (K V : Type) where
  Key : K
  Value : V

/-- Modelled from the spec: the struct `OrderedMap` is declared outside
`yaml.go`. Its entries are a sequence of pairs in insertion order; `list` is
`none` while the map has not allocated its storage (`om.list == nil`).
`capacity` records the capacity hint the storage was last allocated with. -/
structure OrderedMap (K V : Type) where
  list : Option (List (Pair K V))
  capacity : Nat
  disableHTMLEscape : Bool

/-- Modelled from the spec: forward iteration (`Oldest`, then `Next` until
nil) yields the pairs from oldest to newest; a map without storage yields
none. -/
def OrderedMap.entries {K V : Type} (om : OrderedMap K V) : List (Pair K V) :=
  om.list.getD []

/-- Modelled from the spec: lazy storage initialisation with a capacity hint
(the method `om.initialize(capacity, disableHTMLEscape)`): the map gets an
empty storage. -/
def OrderedMap.initialise {K V : Type} (_om : OrderedMap K V) (capacity : Nat)
    (disableHTMLEscape : Bool) : OrderedMap K V :=
  { list := some [], capacity := capacity, disableHTMLEscape := disableHTMLEscape }

/-- Modelled from the spec: the constructor `New[K, V]()`, an empty map with
its storage allocated. -/
def New (K V : Type) : OrderedMap K V :=
  { list := some [], capacity := 0, disableHTMLEscape := false }

/-- Upsert on the sequence of entries: an existing key keeps its position and
takes the new value, a new key goes to the end. -/
def upsert {K V : Type} [DecidableEq K] (key : K) (value : V) :
    List (Pair K V) → List (Pair K V)
  | [] => [⟨key, value⟩]
  | p :: ps => if p.Key = key then ⟨p.Key, value⟩ :: ps else p :: upsert key value ps

/-- Modelled from the spec: `om.Set(key, value)` inserts a new entry or
updates an existing one, preserving the original position of an existing key.
The codec calls it only once the storage is allocated. -/
def OrderedMap.Set {K V : Type} [DecidableEq K] (om : OrderedMap K V) (key : K) (value : V) :
    OrderedMap K V :=
  { om with list := some (upsert key value om.entries) }

/-- The data-model invariant of the ordered map: keys are unique. -/
def OrderedMap.KeysUnique {K V : Type} (om : OrderedMap K V) : Prop :=
  (om.entries.map Pair.Key).Nodup

/-! ## The document layer and the type parameters -/

/-- The values `tryDecodeToOrderedMap` creates and hands to its decode
function: a pointer to an ordered map of one of seven key types, with values
of type `any` (modelled by `A`). Go's signed integer types are carried by
`Int`, the unsigned ones by `Nat`. -/
inductive Candidate (A : Type) where
  | int (m : OrderedMap Int A)
  | int32 (m : OrderedMap Int A)
  | int64 (m : OrderedMap Int A)
  | uint (m : OrderedMap Nat A)
  | uint32 (m : OrderedMap Nat A)
  | uint64 (m : OrderedMap Nat A)
  | string (m : OrderedMap String A)

/-- The operations of `gopkg.in/yaml.v3` the codec calls, at the types it
calls them with. `encodeKey k` is `keyNode.Encode(key)` on a fresh node,
`decodeKey n` is `n.Decode(&key)` into a fresh `var key K`, and likewise for
values; `decodeCandidate n` is the method value `n.Decode` applied to a
candidate map, giving the candidate as the call left it and the error. -/
structure Yaml (K V A : Type) where
  encodeKey : K → Except Error Node
  encodeValue : V → Except Error Node
  decodeKey : Node → Except Error K
  decodeValue : Node → Except Error V
  decodeCandidate : Node → Candidate A → Candidate A × Option Error

/-- What the codec learns at run time about its type parameter `V`:
`isInterface` is `reflect.TypeFor[V]().Kind() == reflect.Interface`, `zero`
is the value of `var val V`, and `assert om1` is the type assertion
`om1.(V)` on a candidate map, `none` when the assertion panics. -/
structure ValueType (V A : Type) where
  isInterface : Bool
  zero : V
  assert : Candidate A → Option V

/-! ## MarshalYAML -/

/-- The `interface{}` result of `MarshalYAML`: nil, a byte slice, or a
pointer to a node. -/
inductive Marshaled where
  | nil
  | bytes (b : List Nat)
  | node (n : Node)

/-- The loop of `MarshalYAML` (lines 27-44) from the pair the cursor is on:
`pairs` are the pairs still to visit, `node` the mapping built so far. -/
def marshalLoop {K V A : Type} (doc : Yaml K V A) :
    List (Pair K V) → Node → Marshaled × Option Error
  | [], node => (.node node, none)
  | pair :: rest, node =>
    match doc.encodeKey pair.Key with
    | .error err => (.nil, some err)
    | .ok keyNode =>
      match doc.encodeValue pair.Value with
      | .error err => (.nil, some err)
      | .ok valueNode => marshalLoop doc rest (node.appendContent [keyNode, valueNode])

/-- The method `MarshalYAML`; the receiver is `none` for a nil pointer. -/
def MarshalYAML {K V A : Type} (doc : Yaml K V A) :
    Option (OrderedMap K V) → Marshaled × Option Error
  | none => (.bytes JSONNullBytes, none)
  | some om => marshalLoop doc om.entries (.mk MappingNode 0 "" "" [])

/-! ## tryDecodeToOrderedMap -/

/-- The slice `possibilities` of constructors (lines 98-106). -/
def possibilities (A : Type) : List (Unit → Candidate A) :=
  [ fun _ => .int (New Int A),
    fun _ => .int32 (New Int A),
    fun _ => .int64 (New Int A),
    fun _ => .uint (New Nat A),
    fun _ => .uint32 (New Nat A),
    fun _ => .uint64 (New Nat A),
    fun _ => .string (New String A) ]

/-- The loop of `tryDecodeToOrderedMap` (lines 108-115) over the
constructors still to try. -/
def tryLoop {A : Type} (decoderFunc : Candidate A → Candidate A × Option Error) :
    List (Unit → Candidate A) → Option (Candidate A) × Option Error
  | [] => (none, some "could not decode to an ordered map")
  | possibilityFunc :: rest =>
    match decoderFunc (possibilityFunc ()) with
    | (possibility, none) => (some possibility, none)
    | (_, some _) => tryLoop decoderFunc rest

/-- The function `tryDecodeToOrderedMap`. -/
def tryDecodeToOrderedMap {A : Type} (decoderFunc : Candidate A → Candidate A × Option Error) :
    Option (Candidate A) × Option Error :=
  tryLoop decoderFunc (possibilities A)

/-! ## UnmarshalYAML -/

/-- How a call of `UnmarshalYAML` ends: it returns nil, returns an error, or
panics (an index out of range, a failed type assertion). -/
inductive Outcome where
  | ok
  | error (err : Error)
  | panic
  deriving DecidableEq, Repr

/-- What lines 65-86 make of the value node of a pair: a value to store, an
error to return, or a panic of the type assertion. -/
inductive Slot (V : Type) where
  | store (val : V)
  | error (err : Error)
  | panic

/-- Lines 84-86: the decode of the value node into `val`. -/
def decodeDirect {K V A : Type} (doc : Yaml K V A) (valueNode : Node) : Slot V :=
  match doc.decodeValue valueNode with
  | .error err => .error err
  | .ok val => .store val

/-- Lines 65-86 of `UnmarshalYAML`: the value the pair is stored with. For an
interface-typed `V` the null token gives the zero value, then a nested map is
tried, and only then the direct decode runs. -/
def valueSlot {K V A : Type} (doc : Yaml K V A) (vt : ValueType V A) (valueNode : Node) :
    Slot V :=
  if vt.isInterface then
    if bytesEqual (bytesOf valueNode.Value) JSONNullBytes then
      .store vt.zero
    else
      match tryDecodeToOrderedMap (doc.decodeCandidate valueNode) with
      | (some om1, none) =>
        match vt.assert om1 with
        | some val => .store val
        | none => .panic
      | (none, none) => .panic
      | (_, some _) => decodeDirect doc valueNode
  else
    decodeDirect doc valueNode

/-- The loop of `UnmarshalYAML` (lines 59-89) from `index` on. -/
def unmarshalLoop {K V A : Type} [DecidableEq K] (doc : Yaml K V A) (vt : ValueType V A)
    (content : List Node) (index : Nat) (om : OrderedMap K V) : OrderedMap K V × Outcome :=
  if h : index < content.length then
    match doc.decodeKey content[index] with
    | .error err => (om, .error err)
    | .ok key =>
      match content[index + 1]? with
      | none => (om, .panic)
      | some valueNode =>
        match valueSlot doc vt valueNode with
        | .error err => (om, .error err)
        | .panic => (om, .panic)
        | .store val => unmarshalLoop doc vt content (index + 2) (om.Set key val)
  else
    (om, .ok)
termination_by content.length - index

/-- The message of the error of line 52, `%v` printing the kind as a number. -/
def notMappingError (kind : Kind) : Error :=
  "pipeline must contain YAML mapping, has " ++ toString kind

/-- The method `UnmarshalYAML`: the receiver as the call leaves it, and how
the call ends. -/
def UnmarshalYAML {K V A : Type} [DecidableEq K] (doc : Yaml K V A) (vt : ValueType V A)
    (om : OrderedMap K V) (value : Node) : OrderedMap K V × Outcome :=
  if value.Kind ≠ MappingNode then
    (om, .error (notMappingError value.Kind))
  else
    let om1 := if om.list.isNone then om.initialise 0 om.disableHTMLEscape else om
    unmarshalLoop doc vt value.Content 0 om1

/-! ## Auxiliary definitions for the statements -/

/-- The loop of `UnmarshalYAML` read off the children still to visit
(`content[index:]`) instead of the index; `unmarshalLoop_eq_decodePairs`
shows it is the same function. A lone last child is a key whose value access
`Content[index+1]` is out of range. -/
def decodePairs {K V A : Type} [DecidableEq K] (doc : Yaml K V A) (vt : ValueType V A) :
    List Node → OrderedMap K V → OrderedMap K V × Outcome
  | [], om => (om, .ok)
  | [keyNode], om =>
    match doc.decodeKey keyNode with
    | .error err => (om, .error err)
    | .ok _ => (om, .panic)
  | keyNode :: valueNode :: rest, om =>
    match doc.decodeKey keyNode with
    | .error err => (om, .error err)
    | .ok key =>
      match valueSlot doc vt valueNode with
      | .error err => (om, .error err)
      | .panic => (om, .panic)
      | .store val => decodePairs doc vt rest (om.Set key val)

/-- The map after `om.Set(p.Key, p.Value)` for each pair of `ps`, in order. -/
def setAll {K V : Type} [DecidableEq K] (om : OrderedMap K V) (ps : List (Pair K V)) :
    OrderedMap K V :=
  ps.foldl (fun m p => m.Set p.Key p.Value) om

/-- Lines 55-57 of `UnmarshalYAML`: the target once its storage is there. -/
def lazyInit {K V : Type} (om : OrderedMap K V) : OrderedMap K V :=
  if om.list.isNone then om.initialise 0 om.disableHTMLEscape else om

/-- The first `ps.length` pairs of `content` decode to the pairs `ps`: key
node `2j` decodes to the key of `ps[j]` and lines 65-86 make its value out of
value node `2j+1`. -/
def DecodesTo {K V A : Type} (doc : Yaml K V A) (vt : ValueType V A) (content : List Node)
    (ps : List (Pair K V)) : Prop :=
  ∀ j, j < ps.length → ∃ keyNode valueNode p,
    content[2 * j]? = some keyNode ∧ content[2 * j + 1]? = some valueNode ∧ ps[j]? = some p ∧
    doc.decodeKey keyNode = .ok p.Key ∧ valueSlot doc vt valueNode = .store p.Value

/-! ## Concrete document layers, for the examples -/

/-- A model of Go's `any` for the examples: nil, a string, or a pointer to an
ordered map made by `tryDecodeToOrderedMap`. -/
inductive AnyValue where
  | nil
  | text (s : String)
  | omap (c : Candidate AnyValue)

/-- The scalar node a string is encoded to. -/
def textNode (value : String) : Node :=
  .mk ScalarNode 0 "!!str" value []

/-- Decoding a node into a Go `string`, for the examples: a scalar gives its
payload, any other node is refused. -/
def decodeText (n : Node) : Except Error String :=
  if n.Kind = ScalarNode then .ok n.Value else .error "cannot unmarshal into string"

/-- A document layer for maps from strings to strings. -/
def textYaml : Yaml String String AnyValue :=
  { encodeKey := fun s => .ok (textNode s)
    encodeValue := fun s => .ok (textNode s)
    decodeKey := decodeText
    decodeValue := decodeText
    decodeCandidate := fun _ c => (c, some "cannot unmarshal into an ordered map") }

/-- The value type `string`: not an interface type, so no candidate map can
be asserted to it. -/
def textType : ValueType String AnyValue :=
  { isInterface := false, zero := "", assert := fun _ => none }

/-- A document layer for maps from strings to values that marshal
themselves (`yaml.Marshaler`): `.ok s` marshals to the scalar `s`, `.error e`
fails to marshal with the error `e`. -/
def marshalerYaml : Yaml String (Except Error String) AnyValue :=
  { encodeKey := fun s => .ok (textNode s)
    encodeValue := fun v =>
      match v with
      | .ok s => .ok (textNode s)
      | .error e => .error e
    decodeKey := decodeText
    decodeValue := fun n =>
      match decodeText n with
      | .ok s => .ok (.ok s)
      | .error e => .error e
    decodeCandidate := fun _ c => (c, some "cannot unmarshal into an ordered map") }

/-- A map with two entries, inserted in the order `b`, `a`. -/
def sampleMap : OrderedMap String String :=
  { list := some [⟨"b", "1"⟩, ⟨"a", "2"⟩], capacity := 0, disableHTMLEscape := false }

/-- A map whose second value fails to marshal. -/
def sampleFailing : OrderedMap String (Except Error String) :=
  { list := some [⟨"b", .ok "1"⟩, ⟨"a", .error "boom"⟩, ⟨"c", .error "late"⟩],
    capacity := 0, disableHTMLEscape := false }

/-- A map that has not allocated its storage. -/
def noStorage (K V : Type) : OrderedMap K V :=
  { list := none, capacity := 0, disableHTMLEscape := false }

/-- A mapping whose two pairs have the same key: `a: x`, `a: y`. -/
def duplicateKeys : Node :=
  .mk MappingNode 0 "!!map" "" [textNode "a", textNode "x", textNode "a", textNode "y"]

/-- A mapping of three pairs whose second value is a sequence, which does not
decode into a string: `a: x`, `b: []`, `c: z`. -/
def badSecondValue : Node :=
  .mk MappingNode 0 "!!map" ""
    [textNode "a", textNode "x", textNode "b", .mk SequenceNode 0 "!!seq" "" [],
     textNode "c", textNode "z"]

/-- The error, if any, of the decode the loop of `UnmarshalYAML` applies to
child `j` of a mapping when the value type is not an interface type: children
at even positions are decoded as keys, those at odd positions as values. -/
def childError {K V A : Type} (doc : Yaml K V A) (j : Nat) (n : Node) : Option Error :=
  if j % 2 = 0 then
    match doc.decodeKey n with
    | .ok _ => none
    | .error err => some err
  else
    match doc.decodeValue n with
    | .ok _ => none
    | .error err => some err

/-- A document layer for maps from strings to `any`, for the examples. The
direct decode of a scalar gives its payload as a string. A candidate map
accepts a mapping without children and is left as it was; it refuses a node
that is not a mapping with the error of line 52; this layer does not decode
the pairs of a nested mapping that has some. -/
def anyYaml : Yaml String AnyValue AnyValue :=
  { encodeKey := fun s => .ok (textNode s)
    encodeValue := fun v =>
      match v with
      | .nil => .ok (.mk ScalarNode 0 "!!null" "null" [])
      | .text s => .ok (textNode s)
      | .omap _ => .error "nested maps are not encoded by this layer"
    decodeKey := decodeText
    decodeValue := fun n =>
      match decodeText n with
      | .ok s => .ok (.text s)
      | .error e => .error e
    decodeCandidate := fun n c =>
      if n.Kind = MappingNode then
        if n.Content.isEmpty then (c, none)
        else (c, some "nested pairs are not decoded by this layer")
      else (c, some (notMappingError n.Kind)) }

/-- The value type `any`: an interface type whose zero value is nil and to
which every candidate map can be asserted. -/
def anyType : ValueType AnyValue AnyValue :=
  { isInterface := true, zero := .nil, assert := fun c => some (.omap c) }

/-- The mapping `k: null`. -/
def nullValueDoc : Node :=
  .mk MappingNode 0 "!!map" "" [textNode "k", .mk ScalarNode 0 "!!null" "null" []]

/-- The mapping whose only pair has the key `k` and an empty mapping as its
value. -/
def nestedEmptyDoc : Node :=
  .mk MappingNode 0 "!!map" "" [textNode "k", .mk MappingNode 0 "!!map" "" []]

/-! ## The candidate key types -/

/-- The key types of the maps `tryDecodeToOrderedMap` tries. -/
inductive KeyType where
  | int
  | int32
  | int64
  | uint
  | uint32
  | uint64
  | string
  deriving DecidableEq, Repr

/-- The key type of a candidate map. -/
def Candidate.keyType {A : Type} : Candidate A → KeyType
  | .int _ => .int
  | .int32 _ => .int32
  | .int64 _ => .int64
  | .uint _ => .uint
  | .uint32 _ => .uint32
  | .uint64 _ => .uint64
  | .string _ => .string

/-- The number of entries of a candidate map. -/
def Candidate.entryCount {A : Type} : Candidate A → Nat
  | .int m => m.entries.length
  | .int32 m => m.entries.length
  | .int64 m => m.entries.length
  | .uint m => m.entries.length
  | .uint32 m => m.entries.length
  | .uint64 m => m.entries.length
  | .string m => m.entries.length

/-- The key types in the order `tryDecodeToOrderedMap` tries them. -/
def candidateOrder : List KeyType :=
  (possibilities Unit).map (fun possibilityFunc => (possibilityFunc ()).keyType)

/-- Whether a key type is a signed integer type. -/
def KeyType.signed : KeyType → Bool
  | .int | .int32 | .int64 => true
  | _ => false

/-- Whether a key type is an unsigned integer type. -/
def KeyType.unsigned : KeyType → Bool
  | .uint | .uint32 | .uint64 => true
  | _ => false

/-- The width in bits of an integer key type. In Go `int` and `uint` have the
width of the platform, `wordSize`, which is 32 or 64; `string` has none. -/
def KeyType.bits (wordSize : Nat) : KeyType → Option Nat
  | .int | .uint => some wordSize
  | .int32 | .uint32 => some 32
  | .int64 | .uint64 => some 64
  | .string => none

/-- The position at which a key type is tried. -/
def KeyType.position (kt : KeyType) : Nat :=
  candidateOrder.indexOf kt

/-- The ordering property "within the signed and within the unsigned
candidates a narrower integer type is always tried before a wider one", on a
platform whose `int` and `uint` are `wordSize` bits wide. -/
def NarrowerFirst (wordSize : Nat) : Prop :=
  ∀ a b : KeyType, (a.signed = true ∧ b.signed = true) ∨ (a.unsigned = true ∧ b.unsigned = true) →
    ∀ wa wb, a.bits wordSize = some wa → b.bits wordSize = some wb → wa < wb →
      a.position < b.position

/-- The constant `yaml.DoubleQuotedStyle`. -/
def DoubleQuotedStyle : Nat := 2

/-! ## An interface type other than `any`, and the reads of the loop -/

/-- A value type that is an interface type with a method the ordered map
does not have (such as `error`): its values are nil or a value known by its
message, and no candidate map can be asserted to it. -/
def errorType : ValueType (Option String) AnyValue :=
  { isInterface := true, zero := none, assert := fun _ => none }

/-- A document layer for maps from strings to that interface type, for the
examples. Its direct decode refuses every node: the library can make no value
of the interface type out of a node other than a null scalar, for which it
leaves nil, and this layer refuses that one as well. Candidate maps are
decoded as in `anyYaml`. -/
def errorYaml : Yaml String (Option String) AnyValue :=
  { encodeKey := fun s => .ok (textNode s)
    encodeValue := fun v =>
      match v with
      | none => .ok (.mk ScalarNode 0 "!!null" "null" [])
      | some s => .ok (textNode s)
    decodeKey := decodeText
    decodeValue := fun _ => .error "cannot unmarshal into an interface with methods"
    decodeCandidate := anyYaml.decodeCandidate }

/-- The positions of the children the loop of `UnmarshalYAML` reads from
`index` on, in the order it reads them: `index` for the key of a pair and,
once the key has decoded, `index + 1` for its value (read at line 71 or 84).
The recursion is that of `unmarshalLoop`. -/
def visits {K V A : Type} (doc : Yaml K V A) (vt : ValueType V A) (content : List Node)
    (index : Nat) : List Nat :=
  if h : index < content.length then
    match doc.decodeKey content[index] with
    | .error _ => [index]
    | .ok _ =>
      match content[index + 1]? with
      | none => [index, index + 1]
      | some valueNode =>
        match valueSlot doc vt valueNode with
        | .store _ => index :: (index + 1) :: visits doc vt content (index + 2)
        | .error _ => [index, index + 1]
        | .panic => [index, index + 1]
  else
    []
termination_by content.length - index

/-- A mapping whose first key is a sequence, which does not decode into a
string: `[]: x`, `c: z`. -/
def badFirstKey : Node :=
  .mk MappingNode 0 "!!map" ""
    [.mk SequenceNode 0 "!!seq" "" [], textNode "x", textNode "c", textNode "z"]

/-! ## Duplicate keys -/

/-- The distinct elements of a list, in the order of their first
occurrences. -/
def firstOccurrences {K : Type} [DecidableEq K] : List K → List K
  | [] => []
  | k :: ks => k :: (firstOccurrences ks).filter (fun x => x ≠ k)

/-- The value of the last pair of `ps` that has the key `k`. -/
def lastValue {K V : Type} [DecidableEq K] (ps : List (Pair K V)) (k : K) : Option V :=
  (ps.reverse.find? (fun p => p.Key = k)).map Pair.Value

/-- The mapping `a: 1`, `b: 2`, `a: 3`, in which the key `a` occurs twice. -/
def repeatedKey : Node :=
  .mk MappingNode 0 "!!map" ""
    [textNode "a", textNode "1", textNode "b", textNode "2", textNode "a", textNode "3"]

/-! ## Nested maps: how the library reaches the codec

For a value that implements `yaml.Unmarshaler` or `yaml.Marshaler`, as a
pointer to an ordered map does, `(*Node).Decode` and `(*Node).Encode` call its
`UnmarshalYAML` and `MarshalYAML`. The definitions below spell out those
calls for the candidate maps, whose values have the type `any`. -/

/-- The library's conversions for keys of the type `T`: `keyNode.Encode(key)`
and `keyNode.Decode(&key)`. -/
structure KeyCodec (T : Type) where
  Encode : T → Except Error Node
  Decode : Node → Except Error T

/-- The library's conversions for the keys of the seven candidate maps. -/
structure KeyCodecs where
  int : KeyCodec Int
  int32 : KeyCodec Int
  int64 : KeyCodec Int
  uint : KeyCodec Nat
  uint32 : KeyCodec Nat
  uint64 : KeyCodec Nat
  string : KeyCodec String

/-- The error, if any, of decoding a node into a key of the given candidate
type. -/
def KeyCodecs.decodeError (kcs : KeyCodecs) (kt : KeyType) (n : Node) : Option Error :=
  let err := fun {T : Type} (r : Except Error T) =>
    match r with
    | .ok _ => (none : Option Error)
    | .error e => some e
  match kt with
  | .int => err (kcs.int.Decode n)
  | .int32 => err (kcs.int32.Decode n)
  | .int64 => err (kcs.int64.Decode n)
  | .uint => err (kcs.uint.Decode n)
  | .uint32 => err (kcs.uint32.Decode n)
  | .uint64 => err (kcs.uint64.Decode n)
  | .string => err (kcs.string.Decode n)

/-- The document layer of a map `OrderedMap[T, any]`: its keys are converted
by `kc`, its values, of type `any`, as in `inner`. -/
def candidateYaml {K T A : Type} (inner : Yaml K A A) (kc : KeyCodec T) : Yaml T A A :=
  { encodeKey := kc.Encode
    encodeValue := inner.encodeValue
    decodeKey := kc.Decode
    decodeValue := inner.decodeValue
    decodeCandidate := inner.decodeCandidate }

/-- The call `candidate.UnmarshalYAML(n)` on a candidate map: the candidate
as the call leaves it, and how the call ends. -/
def candidateUnmarshal {K A : Type} (kcs : KeyCodecs) (inner : Yaml K A A)
    (va : ValueType A A) (n : Node) : Candidate A → Candidate A × Outcome
  | .int m =>
    ((.int (UnmarshalYAML (candidateYaml inner kcs.int) va m n).1),
      (UnmarshalYAML (candidateYaml inner kcs.int) va m n).2)
  | .int32 m =>
    ((.int32 (UnmarshalYAML (candidateYaml inner kcs.int32) va m n).1),
      (UnmarshalYAML (candidateYaml inner kcs.int32) va m n).2)
  | .int64 m =>
    ((.int64 (UnmarshalYAML (candidateYaml inner kcs.int64) va m n).1),
      (UnmarshalYAML (candidateYaml inner kcs.int64) va m n).2)
  | .uint m =>
    ((.uint (UnmarshalYAML (candidateYaml inner kcs.uint) va m n).1),
      (UnmarshalYAML (candidateYaml inner kcs.uint) va m n).2)
  | .uint32 m =>
    ((.uint32 (UnmarshalYAML (candidateYaml inner kcs.uint32) va m n).1),
      (UnmarshalYAML (candidateYaml inner kcs.uint32) va m n).2)
  | .uint64 m =>
    ((.uint64 (UnmarshalYAML (candidateYaml inner kcs.uint64) va m n).1),
      (UnmarshalYAML (candidateYaml inner kcs.uint64) va m n).2)
  | .string m =>
    ((.string (UnmarshalYAML (candidateYaml inner kcs.string) va m n).1),
      (UnmarshalYAML (candidateYaml inner kcs.string) va m n).2)

/-- The call `candidate.MarshalYAML()` on a candidate map. -/
def candidateMarshal {K A : Type} (kcs : KeyCodecs) (inner : Yaml K A A) :
    Candidate A → Marshaled × Option Error
  | .int m => MarshalYAML (candidateYaml inner kcs.int) (some m)
  | .int32 m => MarshalYAML (candidateYaml inner kcs.int32) (some m)
  | .int64 m => MarshalYAML (candidateYaml inner kcs.int64) (some m)
  | .uint m => MarshalYAML (candidateYaml inner kcs.uint) (some m)
  | .uint32 m => MarshalYAML (candidateYaml inner kcs.uint32) (some m)
  | .uint64 m => MarshalYAML (candidateYaml inner kcs.uint64) (some m)
  | .string m => MarshalYAML (candidateYaml inner kcs.string) (some m)

/-- The library decodes the node `n` into a candidate map by calling the
candidate's `UnmarshalYAML`, which decodes the values of the nested map with
`inner`: when that call returns, `n.Decode(candidate)` leaves the candidate as
the call left it and returns what it returned. -/
def Dispatches {K K1 A : Type} (kcs : KeyCodecs) (doc : Yaml K A A) (inner : Yaml K1 A A)
    (va : ValueType A A) (n : Node) : Prop :=
  ∀ c : Candidate A,
    ((candidateUnmarshal kcs inner va n c).2 = .ok →
      doc.decodeCandidate n c = ((candidateUnmarshal kcs inner va n c).1, none)) ∧
    (∀ err, (candidateUnmarshal kcs inner va n c).2 = .error err →
      doc.decodeCandidate n c = ((candidateUnmarshal kcs inner va n c).1, some err))

/-- The candidate map `tryDecodeToOrderedMap` creates for a key type. -/
def freshCandidate (A : Type) : KeyType → Candidate A
  | .int => .int (New Int A)
  | .int32 => .int32 (New Int A)
  | .int64 => .int64 (New Int A)
  | .uint => .uint (New Nat A)
  | .uint32 => .uint32 (New Nat A)
  | .uint64 => .uint64 (New Nat A)
  | .string => .string (New String A)

/-! ## A model of the library on plain scalars, for the examples

The library's conversions on the nodes the examples use: scalars tagged
`!!str`, `!!int` (written in decimal) and `!!null`, and mappings of them, on
a platform whose `int` is 64 bits wide. Error messages are shortened. -/

/-- The scalar node an integer is encoded to, given its decimal text. -/
def intNode (value : String) : Node :=
  .mk ScalarNode 0 "!!int" value []

/-- The scalar node of a double-quoted string. -/
def quotedNode (value : String) : Node :=
  .mk ScalarNode DoubleQuotedStyle "!!str" value []

/-- The null scalar, as `Encode` writes nil. -/
def nullNode : Node :=
  .mk ScalarNode 0 "!!null" "null" []

/-- The number with the given decimal digits, if they are digits. -/
def parseDigits (cs : List Char) : Option Nat :=
  cs.foldl
    (fun acc c =>
      match acc with
      | none => none
      | some n => if c.isDigit then some (10 * n + (c.toNat - 48)) else none)
    (some 0)

/-- The integer with the given decimal text, if it is one. -/
def parseInt (s : String) : Option Int :=
  match s.data with
  | [] => none
  | '-' :: cs =>
    match cs with
    | [] => none
    | _ => (parseDigits cs).map (fun n => - (n : Int))
  | cs => (parseDigits cs).map (fun n => (n : Int))

/-- Decoding a scalar into a signed integer type with the given bounds: a
`!!int` scalar gives its number when it fits, a null scalar leaves the zero
value, and any other node is refused. -/
def decodeSigned (lo hi : Int) (n : Node) : Except Error Int :=
  if n.Kind = ScalarNode then
    if n.Tag = "!!null" then .ok 0
    else if n.Tag = "!!int" then
      match parseInt n.Value with
      | some i => if lo ≤ i ∧ i ≤ hi then .ok i else .error "cannot unmarshal: out of range"
      | none => .error "cannot unmarshal into an integer"
    else .error "cannot unmarshal into an integer"
  else .error "cannot unmarshal into an integer"

/-- Decoding a scalar into an unsigned integer type with the given bound. -/
def decodeUnsigned (hi : Nat) (n : Node) : Except Error Nat :=
  match decodeSigned 0 hi n with
  | .ok i => .ok i.toNat
  | .error err => .error err

/-- Decoding a scalar into a string: its payload, or the empty string for a
null scalar; any other node is refused. -/
def decodeString (n : Node) : Except Error String :=
  if n.Kind = ScalarNode then
    if n.Tag = "!!null" then .ok "" else .ok n.Value
  else .error "cannot unmarshal into string"

/-- The key conversions of the model, `int` and `uint` being 64 bits wide. -/
def modelKeys : KeyCodecs :=
  { int := ⟨fun i => .ok (intNode (toString i)), decodeSigned (-9223372036854775808) 9223372036854775807⟩
    int32 := ⟨fun i => .ok (intNode (toString i)), decodeSigned (-2147483648) 2147483647⟩
    int64 := ⟨fun i => .ok (intNode (toString i)), decodeSigned (-9223372036854775808) 9223372036854775807⟩
    uint := ⟨fun i => .ok (intNode (toString i)), decodeUnsigned 18446744073709551615⟩
    uint32 := ⟨fun i => .ok (intNode (toString i)), decodeUnsigned 4294967295⟩
    uint64 := ⟨fun i => .ok (intNode (toString i)), decodeUnsigned 18446744073709551615⟩
    string := ⟨fun s => .ok (textNode s), decodeString⟩ }

/-- Decoding a scalar into a `var val any`: nil for a null scalar, the
payload for a `!!str` scalar; other nodes are outside the model and
refused. -/
def decodeAny (n : Node) : Except Error AnyValue :=
  if n.Kind = ScalarNode then
    if n.Tag = "!!null" then .ok .nil
    else if n.Tag = "!!str" then .ok (.text n.Value)
    else .error "scalar outside the model"
  else .error "node outside the model"

/-- The document layer of the model for maps from strings to `any`, nested
maps being followed `depth` levels down. A nested map is encoded by its
`MarshalYAML`, the node coming back tagged `!!map`; a node other than a null
scalar is decoded into a candidate map by the candidate's `UnmarshalYAML`,
and a null scalar leaves the candidate as it is. A panic of that call, which
takes an odd number of children, is reported as an error. -/
def modelYaml : Nat → Yaml String AnyValue AnyValue
  | 0 =>
    { encodeKey := fun s => .ok (textNode s)
      encodeValue := fun v =>
        match v with
        | .nil => .ok nullNode
        | .text s => .ok (textNode s)
        | .omap _ => .error "nesting deeper than the model"
      decodeKey := decodeString
      decodeValue := decodeAny
      decodeCandidate := fun _ c => (c, some "nesting deeper than the model") }
  | depth + 1 =>
    { encodeKey := fun s => .ok (textNode s)
      encodeValue := fun v =>
        match v with
        | .nil => .ok nullNode
        | .text s => .ok (textNode s)
        | .omap c =>
          match candidateMarshal modelKeys (modelYaml depth) c with
          | (.node node, none) => .ok (.mk MappingNode 0 "!!map" "" node.Content)
          | (_, some err) => .error err
          | (_, none) => .error "MarshalYAML returned no node"
      decodeKey := decodeString
      decodeValue := decodeAny
      decodeCandidate := fun n c =>
        if n.Tag = "!!null" then (c, none)
        else
          match candidateUnmarshal modelKeys (modelYaml depth) anyType n c with
          | (c1, .ok) => (c1, none)
          | (c1, .error err) => (c1, some err)
          | (c1, .panic) => (c1, some "panic") }

/-- The mapping `1: a`, `2: b`, its keys written bare. -/
def bareKeys : Node :=
  .mk MappingNode 0 "!!map" "" [intNode "1", textNode "a", intNode "2", textNode "b"]

/-- The mapping `"1": a`, `"2": b`, its keys written in quotes. -/
def quotedKeys : Node :=
  .mk MappingNode 0 "!!map" "" [quotedNode "1", textNode "a", quotedNode "2", textNode "b"]

/-- The map `1: a`, `2: b` with integer keys and values of type `any`. -/
def nestedEntries : OrderedMap Int AnyValue :=
  { list := some [⟨1, .text "a"⟩, ⟨2, .text "b"⟩], capacity := 0, disableHTMLEscape := false }

/-- A map of `any` whose value for the key `m` is a pointer to the map
`1: a`, `2: b` with the key type `int32`. -/
def holdsInt32 : OrderedMap String AnyValue :=
  { list := some [⟨"m", .omap (.int32 nestedEntries)⟩], capacity := 0,
    disableHTMLEscape := false }

/-- A map of `any` whose value for the key `m` is a pointer to the map
`1: a`, `2: b` with the key type `int`. -/
def holdsInt : OrderedMap String AnyValue :=
  { list := some [⟨"m", .omap (.int nestedEntries)⟩], capacity := 0,
    disableHTMLEscape := false }

/-- The node both of them are encoded to: the mapping whose pair `m` has the
mapping `1: a`, `2: b` as its value. -/
def nestedDoc : Node :=
  .mk MappingNode 0 "" "" [textNode "m", bareKeys]

/-- The value `v`, of type `any`, is nil or a plain value for the document
layer `doc`: it converts to a node, and either `v` is the zero value and the
node has the payload `null`, or the node has another payload, `Decode` of it
into each of the seven candidate maps returns an error, and `Decode` of it
into a `var val any` gives back `v`. -/
def PlainRoundTrip {K A : Type} (doc : Yaml K A A) (va : ValueType A A) (v : A) : Prop :=
  ∃ vn, doc.encodeValue v = .ok vn ∧
    ((vn.Value = "null" ∧ v = va.zero) ∨
      (vn.Value ≠ "null" ∧
        (∀ f ∈ possibilities A, (doc.decodeCandidate vn (f ())).2 ≠ none) ∧
        doc.decodeValue vn = .ok v))

/-- The map `1: nil` with integer keys and values of type `any`. -/
def nestedNil : OrderedMap Int AnyValue :=
  { list := some [⟨1, .nil⟩], capacity := 0, disableHTMLEscape := false }

/-- The mapping whose pair `m` has the mapping `1: "null"` as its value, the
string `null` being written in quotes, as `Encode` writes it. -/
def nullStringDoc : Node :=
  .mk MappingNode 0 "" "" [textNode "m", .mk MappingNode 0 "!!map" "" [intNode "1", quotedNode "null"]]

end orderedmap

namespace orderedmap

/-! ## General facts -/

theorem utf8Bytes_head (c : Char) (b : Nat) (t rest : List Nat) (hb : b < 128)
    (h : utf8Bytes c ++ rest = b :: t) : c = Char.ofNat b ∧ rest = t := by
  unfold utf8Bytes at h
  simp only at h
  split_ifs at h with h1 h2 h3
  · simp at h
    refine ⟨?_, h.2⟩
    have hc : c.toNat = b := h.1
    rw [← hc]
    simp [Char.ofNat_toNat]
  all_goals (simp at h; omega)

theorem utf8Bytes_ne_nil (c : Char) : utf8Bytes c ≠ [] := by
  unfold utf8Bytes
  simp only
  split_ifs <;> simp

/-- The bytes of a string are the null token exactly when the string is the
literal `null`. -/
theorem bytesOf_eq_null (s : String) : bytesOf s = JSONNullBytes ↔ s = "null" := by
  constructor
  · intro h
    obtain ⟨cs⟩ := s
    unfold bytesOf JSONNullBytes at h
    simp only at h
    rcases cs with _ | ⟨c1, cs⟩
    · simp at h
    rw [List.flatMap_cons] at h
    have ⟨e1, h1⟩ := utf8Bytes_head _ _ _ _ (by norm_num) h
    subst e1
    rcases cs with _ | ⟨c2, cs⟩
    · simp at h1
    rw [List.flatMap_cons] at h1
    have ⟨e2, h2⟩ := utf8Bytes_head _ _ _ _ (by norm_num) h1
    subst e2
    rcases cs with _ | ⟨c3, cs⟩
    · simp at h2
    rw [List.flatMap_cons] at h2
    have ⟨e3, h3⟩ := utf8Bytes_head _ _ _ _ (by norm_num) h2
    subst e3
    rcases cs with _ | ⟨c4, cs⟩
    · simp at h3
    rw [List.flatMap_cons] at h3
    have ⟨e4, h4⟩ := utf8Bytes_head _ _ _ _ (by norm_num) h3
    subst e4
    rcases cs with _ | ⟨c5, cs⟩
    · rfl
    · rw [List.flatMap_cons] at h4
      have := utf8Bytes_ne_nil c5
      simp_all
  · rintro rfl; decide

theorem bytesEqual_null_iff (s : String) :
    bytesEqual (bytesOf s) JSONNullBytes = true ↔ s = "null" := by
  simp [bytesEqual, bytesOf_eq_null]

/-- The index loop and the loop over the remaining children agree. -/
theorem unmarshalLoop_eq_decodePairs {K V A : Type} [DecidableEq K] (doc : Yaml K V A)
    (vt : ValueType V A) (content : List Node) :
    ∀ (n index : Nat) (om : OrderedMap K V), content.length - index = n →
      unmarshalLoop doc vt content index om = decodePairs doc vt (content.drop index) om := by
  intro n
  induction n using Nat.strong_induction_on with
  | _ n ih =>
    intro index om hn
    rw [unmarshalLoop]
    by_cases h : index < content.length
    · rw [dif_pos h, List.drop_eq_getElem_cons h]
      by_cases h1 : index + 1 < content.length
      · rw [List.drop_eq_getElem_cons h1, List.getElem?_eq_getElem h1]
        simp only [decodePairs]
        cases doc.decodeKey content[index] with
        | error err => rfl
        | ok key =>
          simp only
          cases valueSlot doc vt content[index + 1] with
          | error err => rfl
          | panic => rfl
          | store val =>
            simp only
            exact ih (content.length - (index + 2)) (by omega) (index + 2) _ rfl
      · have h2 : content.length ≤ index + 1 := by omega
        rw [List.drop_of_length_le h2, List.getElem?_eq_none h2]
        simp only [decodePairs]
    · rw [dif_neg h, List.drop_of_length_le (by omega)]
      simp only [decodePairs]

theorem UnmarshalYAML_eq {K V A : Type} [DecidableEq K] (doc : Yaml K V A)
    (vt : ValueType V A) (om : OrderedMap K V) (value : Node) (h : value.Kind = MappingNode) :
    UnmarshalYAML doc vt om value = decodePairs doc vt value.Content (lazyInit om) := by
  unfold UnmarshalYAML
  rw [if_neg (by simp [h])]
  simp only
  rw [unmarshalLoop_eq_decodePairs doc vt value.Content _ 0 _ rfl]
  simp [lazyInit]

theorem decodePairs_skip {K V A : Type} [DecidableEq K] (doc : Yaml K V A)
    (vt : ValueType V A) :
    ∀ (ps : List (Pair K V)) (content : List Node) (om : OrderedMap K V),
      DecodesTo doc vt content ps →
      decodePairs doc vt content om
        = decodePairs doc vt (content.drop (2 * ps.length)) (setAll om ps) := by
  intro ps
  induction ps with
  | nil => intro content om _; simp [setAll]
  | cons p ps ih =>
    intro content om h
    obtain ⟨keyNode, valueNode, p0, hk, hv, hp, hdk, hdv⟩ := h 0 (by simp)
    simp at hp
    subst hp
    rcases content with _ | ⟨c0, content⟩
    · simp at hk
    rcases content with _ | ⟨c1, content⟩
    · simp at hv
    simp at hk hv
    subst hk hv
    have hrest : DecodesTo doc vt content ps := by
      intro j hj
      obtain ⟨kn, vn, q, h1, h2, h3, h4, h5⟩ := h (j + 1) (by simp; omega)
      refine ⟨kn, vn, q, ?_, ?_, ?_, h4, h5⟩
      · have e : 2 * (j + 1) = 2 * j + 1 + 1 := by ring
        rw [e] at h1
        simpa using h1
      · have e : 2 * (j + 1) + 1 = 2 * j + 1 + 1 + 1 := by ring
        rw [e] at h2
        simpa using h2
      · simpa using h3
    have e : 2 * (p :: ps).length = 2 * ps.length + 1 + 1 := by simp; ring
    rw [e]
    simp only [decodePairs, hdk, hdv, List.drop_succ_cons]
    rw [ih content _ hrest]
    rfl

theorem upsert_of_not_mem {K V : Type} [DecidableEq K] (key : K) (value : V) :
    ∀ (l : List (Pair K V)), key ∉ l.map Pair.Key → upsert key value l = l ++ [⟨key, value⟩] := by
  intro l
  induction l with
  | nil => intro _; rfl
  | cons q l ih =>
    intro h
    simp at h
    have hq : ¬ q.Key = key := fun e => h.1 e.symm
    simp only [upsert, if_neg hq, List.cons_append]
    rw [ih (by simpa using h.2)]

theorem entries_Set {K V : Type} [DecidableEq K] (om : OrderedMap K V) (key : K) (value : V) :
    (om.Set key value).entries = upsert key value om.entries := rfl

theorem entries_setAll {K V : Type} [DecidableEq K] :
    ∀ (ps : List (Pair K V)) (om : OrderedMap K V),
      (setAll om ps).entries = ps.foldl (fun l p => upsert p.Key p.Value l) om.entries := by
  intro ps
  induction ps with
  | nil => intro om; rfl
  | cons p ps ih =>
    intro om
    simp only [setAll, List.foldl_cons] at ih ⊢
    rw [ih]
    rfl

theorem foldl_upsert_of_nodup {K V : Type} [DecidableEq K] :
    ∀ (ps l : List (Pair K V)), ((l ++ ps).map Pair.Key).Nodup →
      ps.foldl (fun l p => upsert p.Key p.Value l) l = l ++ ps := by
  intro ps
  induction ps with
  | nil => intro l _; simp
  | cons p ps ih =>
    intro l h
    have hp : p.Key ∉ l.map Pair.Key := by
      intro hmem
      rw [List.map_append, List.map_cons] at h
      have := (List.nodup_append.mp h).2.2
      exact this hmem (by simp)
    simp only [List.foldl_cons]
    rw [upsert_of_not_mem _ _ _ hp, ih]
    · simp
    · simpa using h

theorem lazyInit_entries {K V : Type} (om : OrderedMap K V) :
    (lazyInit om).entries = om.entries := by
  unfold lazyInit
  split
  · rename_i h
    cases hl : om.list with
    | none => simp [OrderedMap.entries, OrderedMap.initialise, hl]
    | some l => simp [hl] at h
  · rfl

/-! ## The invariant of the ordered map -/

theorem map_Key_upsert {K V : Type} [DecidableEq K] (key : K) (value : V) :
    ∀ l : List (Pair K V), (upsert key value l).map Pair.Key
      = if key ∈ l.map Pair.Key then l.map Pair.Key else l.map Pair.Key ++ [key] := by
  intro l
  induction l with
  | nil => simp [upsert]
  | cons q l ih =>
    by_cases hq : q.Key = key
    · simp [upsert, hq]
    · have hne : ¬ key = q.Key := fun e => hq e.symm
      simp only [upsert, if_neg hq, List.map_cons, ih, List.mem_cons, hne, false_or]
      split <;> simp

/-- A new map has unique keys. -/
theorem KeysUnique_New (K V : Type) : (New K V).KeysUnique := by
  simp [OrderedMap.KeysUnique, OrderedMap.entries, New]

/-- The method `Set` keeps the keys unique. -/
theorem KeysUnique_Set {K V : Type} [DecidableEq K] (om : OrderedMap K V) (key : K) (value : V)
    (h : om.KeysUnique) : (om.Set key value).KeysUnique := by
  unfold OrderedMap.KeysUnique at h ⊢
  rw [entries_Set, map_Key_upsert]
  split
  · exact h
  · rename_i hmem
    rw [List.nodup_append]
    refine ⟨h, by simp, ?_⟩
    intro a ha hb
    simp at hb
    subst hb
    exact hmem ha

/-! ## MarshalYAML -/

theorem appendContent_appendContent (node : Node) (a b : List Node) :
    (node.appendContent a).appendContent b = node.appendContent (a ++ b) := by
  cases node with
  | mk kind style tag value content => simp [Node.appendContent]

theorem appendContent_Kind (node : Node) (a : List Node) :
    (node.appendContent a).Kind = node.Kind := by
  cases node with
  | mk kind style tag value content => rfl

theorem appendContent_Content (node : Node) (a : List Node) :
    (node.appendContent a).Content = node.Content ++ a := by
  cases node with
  | mk kind style tag value content => rfl

/-- When every conversion succeeds the loop appends, to the node it started
from, the key node and the value node of each pair, in order. -/
theorem marshalLoop_ok {K V A : Type} (doc : Yaml K V A) :
    ∀ (pairs : List (Pair K V)) (node : Node),
      (∀ p ∈ pairs, ∃ n, doc.encodeKey p.Key = .ok n) →
      (∀ p ∈ pairs, ∃ n, doc.encodeValue p.Value = .ok n) →
      ∃ nodes, marshalLoop doc pairs node = (.node (node.appendContent nodes), none) ∧
        nodes.length = 2 * pairs.length ∧
        ∀ i, i < pairs.length → ∃ p keyNode valueNode,
          pairs[i]? = some p ∧ nodes[2 * i]? = some keyNode ∧
          nodes[2 * i + 1]? = some valueNode ∧
          doc.encodeKey p.Key = .ok keyNode ∧ doc.encodeValue p.Value = .ok valueNode := by
  intro pairs
  induction pairs with
  | nil =>
    intro node _ _
    refine ⟨[], ?_, rfl, ?_⟩
    · cases node with
      | mk kind style tag value content => simp [marshalLoop, Node.appendContent]
    · intro i hi; simp at hi
  | cons p rest ih =>
    intro node hk hv
    obtain ⟨kn, hkn⟩ := hk p (by simp)
    obtain ⟨vn, hvn⟩ := hv p (by simp)
    obtain ⟨nodes, hrun, hlen, hidx⟩ := ih (node.appendContent [kn, vn])
      (fun q hq => hk q (by simp [hq])) (fun q hq => hv q (by simp [hq]))
    refine ⟨kn :: vn :: nodes, ?_, ?_, ?_⟩
    · simp only [marshalLoop, hkn, hvn]
      rw [hrun, appendContent_appendContent]
      rfl
    · simp [hlen]; ring
    · intro i hi
      cases i with
      | zero => exact ⟨p, kn, vn, by simp, by simp, by simp, hkn, hvn⟩
      | succ i =>
        obtain ⟨q, a, b, h1, h2, h3, h4, h5⟩ := hidx i (by simpa using hi)
        refine ⟨q, a, b, by simpa using h1, ?_, ?_, h4, h5⟩
        · have e : 2 * (i + 1) = 2 * i + 1 + 1 := by ring
          rw [e]; simpa using h2
        · have e : 2 * (i + 1) + 1 = 2 * i + 1 + 1 + 1 := by ring
          rw [e]; simpa using h3

/-- When some conversion fails the loop returns the error of the first one
that does, and a nil value. -/
theorem marshalLoop_error {K V A : Type} (doc : Yaml K V A) :
    ∀ (pairs : List (Pair K V)) (node : Node),
      (∃ p ∈ pairs, (∃ e, doc.encodeKey p.Key = .error e) ∨
        (∃ e, doc.encodeValue p.Value = .error e)) →
      ∃ pre p post err, pairs = pre ++ p :: post ∧
        (∀ q ∈ pre, (∃ n, doc.encodeKey q.Key = .ok n) ∧ ∃ n, doc.encodeValue q.Value = .ok n) ∧
        (doc.encodeKey p.Key = .error err ∨
          ((∃ n, doc.encodeKey p.Key = .ok n) ∧ doc.encodeValue p.Value = .error err)) ∧
        marshalLoop doc pairs node = (.nil, some err) := by
  intro pairs
  induction pairs with
  | nil => intro node h; obtain ⟨p, hp, _⟩ := h; simp at hp
  | cons p rest ih =>
    intro node h
    cases hk : doc.encodeKey p.Key with
    | error err =>
      exact ⟨[], p, rest, err, rfl, by simp, Or.inl hk, by simp [marshalLoop, hk]⟩
    | ok kn =>
      cases hv : doc.encodeValue p.Value with
      | error err =>
        exact ⟨[], p, rest, err, rfl, by simp, Or.inr ⟨⟨kn, hk⟩, hv⟩,
          by simp [marshalLoop, hk, hv]⟩
      | ok vn =>
        have hrest : ∃ q ∈ rest, (∃ e, doc.encodeKey q.Key = .error e) ∨
            (∃ e, doc.encodeValue q.Value = .error e) := by
          obtain ⟨q, hq, hfail⟩ := h
          rcases List.mem_cons.mp hq with rfl | hq
          · rcases hfail with ⟨e, he⟩ | ⟨e, he⟩
            · rw [hk] at he; cases he
            · rw [hv] at he; cases he
          · exact ⟨q, hq, hfail⟩
        obtain ⟨pre, q, post, err, hsplit, hpre, hq, hrun⟩ :=
          ih (node.appendContent [kn, vn]) hrest
        refine ⟨p :: pre, q, post, err, by simp [hsplit], ?_, hq, ?_⟩
        · intro r hr
          rcases List.mem_cons.mp hr with rfl | hr
          · exact ⟨⟨kn, hk⟩, ⟨vn, hv⟩⟩
          · exact hpre r hr
        · simp only [marshalLoop, hk, hv]
          exact hrun

/-! ## Claims about MarshalYAML -/

/-- C2: for a non-nil map with `n` entries whose key and value conversions
all succeed, `MarshalYAML` returns no error and a mapping node with exactly
`2n` children; child `2i` is the node the `i`-th key converts to and child
`2i+1` the node the `i`-th value converts to, `i` counting the entries in
insertion order. -/
theorem MarshalYAML_interleaves {K V A : Type} (doc : Yaml K V A) (om : OrderedMap K V)
    (hk : ∀ p ∈ om.entries, ∃ n, doc.encodeKey p.Key = .ok n)
    (hv : ∀ p ∈ om.entries, ∃ n, doc.encodeValue p.Value = .ok n) :
    ∃ node, MarshalYAML doc (some om) = (.node node, none) ∧
      node.Kind = MappingNode ∧
      node.Content.length = 2 * om.entries.length ∧
      ∀ i, i < om.entries.length → ∃ p keyNode valueNode,
        om.entries[i]? = some p ∧ node.Content[2 * i]? = some keyNode ∧
        node.Content[2 * i + 1]? = some valueNode ∧
        doc.encodeKey p.Key = .ok keyNode ∧ doc.encodeValue p.Value = .ok valueNode := by
  obtain ⟨nodes, hrun, hlen, hidx⟩ :=
    marshalLoop_ok doc om.entries (.mk MappingNode 0 "" "" []) hk hv
  refine ⟨(Node.mk MappingNode 0 "" "" []).appendContent nodes, hrun, ?_, ?_, ?_⟩
  · rfl
  · simpa [Node.appendContent, Node.Content] using hlen
  · simpa [Node.appendContent, Node.Content] using hidx

/-- C2, on the map with the entries `b: 1`, `a: 2`. -/
theorem MarshalYAML_interleaves_witness :
    ∃ node, MarshalYAML textYaml (some sampleMap) = (.node node, none) ∧
      node.Kind = MappingNode ∧
      node.Content.length = 2 * sampleMap.entries.length ∧
      ∀ i, i < sampleMap.entries.length → ∃ p keyNode valueNode,
        sampleMap.entries[i]? = some p ∧ node.Content[2 * i]? = some keyNode ∧
        node.Content[2 * i + 1]? = some valueNode ∧
        textYaml.encodeKey p.Key = .ok keyNode ∧ textYaml.encodeValue p.Value = .ok valueNode :=
  MarshalYAML_interleaves textYaml sampleMap
    (fun p _ => ⟨textNode p.Key, rfl⟩) (fun p _ => ⟨textNode p.Value, rfl⟩)

/-- C3: on a nil map reference `MarshalYAML` returns, with no error, the
null token, which is the four bytes of `null` and is not a node; on a map
with no entries it returns a mapping node with zero children; the two
results differ. -/
theorem MarshalYAML_nil_and_empty {K V A : Type} (doc : Yaml K V A) (om : OrderedMap K V)
    (hempty : om.entries = []) :
    MarshalYAML doc (none : Option (OrderedMap K V)) = (.bytes JSONNullBytes, none) ∧
      JSONNullBytes = bytesOf "null" ∧ JSONNullBytes.length = 4 ∧
      (∀ n, (MarshalYAML doc (none : Option (OrderedMap K V))).1 ≠ .node n) ∧
      (∃ node, MarshalYAML doc (some om) = (.node node, none) ∧
        node.Kind = MappingNode ∧ node.Content = []) ∧
      MarshalYAML doc (none : Option (OrderedMap K V)) ≠ MarshalYAML doc (some om) := by
  refine ⟨rfl, by decide, rfl, ?_, ?_, ?_⟩
  · intro n h
    simp [MarshalYAML] at h
  · exact ⟨.mk MappingNode 0 "" "" [], by simp [MarshalYAML, hempty, marshalLoop], rfl, rfl⟩
  · simp [MarshalYAML, hempty, marshalLoop]

/-- C3, on a freshly constructed map. -/
theorem MarshalYAML_nil_and_empty_witness :
    MarshalYAML textYaml (none : Option (OrderedMap String String))
        = (.bytes [110, 117, 108, 108], none) ∧
      MarshalYAML textYaml (some (New String String))
        = (.node (.mk MappingNode 0 "" "" []), none) :=
  ⟨(MarshalYAML_nil_and_empty textYaml (New String String) rfl).1, rfl⟩

/-- C4: when the conversion of some key or value of a non-nil map fails,
`MarshalYAML` returns a nil value and the error of the first conversion that
fails, the pairs taken in iteration order and the key of a pair before its
value. -/
theorem MarshalYAML_first_error {K V A : Type} (doc : Yaml K V A) (om : OrderedMap K V)
    (hfail : ∃ p ∈ om.entries, (∃ e, doc.encodeKey p.Key = .error e) ∨
      (∃ e, doc.encodeValue p.Value = .error e)) :
    ∃ pre p post err, om.entries = pre ++ p :: post ∧
      (∀ q ∈ pre, (∃ n, doc.encodeKey q.Key = .ok n) ∧ ∃ n, doc.encodeValue q.Value = .ok n) ∧
      (doc.encodeKey p.Key = .error err ∨
        ((∃ n, doc.encodeKey p.Key = .ok n) ∧ doc.encodeValue p.Value = .error err)) ∧
      MarshalYAML doc (some om) = (.nil, some err) :=
  marshalLoop_error doc om.entries (.mk MappingNode 0 "" "" []) hfail

/-- C4, on a map whose second and third values fail to marshal. -/
theorem MarshalYAML_first_error_witness :
    MarshalYAML marshalerYaml (some sampleFailing) = (.nil, some "boom") ∧
    ∃ pre p post err, sampleFailing.entries = pre ++ p :: post ∧
      (∀ q ∈ pre, (∃ n, marshalerYaml.encodeKey q.Key = .ok n) ∧
        ∃ n, marshalerYaml.encodeValue q.Value = .ok n) ∧
      (marshalerYaml.encodeKey p.Key = .error err ∨
        ((∃ n, marshalerYaml.encodeKey p.Key = .ok n) ∧
          marshalerYaml.encodeValue p.Value = .error err)) ∧
      MarshalYAML marshalerYaml (some sampleFailing) = (.nil, some err) :=
  ⟨rfl, MarshalYAML_first_error marshalerYaml sampleFailing
    ⟨⟨"c", .error "late"⟩, by simp [sampleFailing, OrderedMap.entries],
      Or.inr ⟨"late", rfl⟩⟩⟩

/-! ## Claims about UnmarshalYAML -/

/-- C5: for a node whose kind is not mapping, `UnmarshalYAML` returns the
error naming the kind and leaves the target map as it was: no entry is
inserted or updated and the storage is not initialised. -/
theorem UnmarshalYAML_not_mapping {K V A : Type} [DecidableEq K] (doc : Yaml K V A)
    (vt : ValueType V A) (om : OrderedMap K V) (value : Node)
    (hkind : value.Kind ≠ MappingNode) :
    UnmarshalYAML doc vt om value = (om, .error (notMappingError value.Kind)) := by
  unfold UnmarshalYAML
  rw [if_pos hkind]

/-- C5, on a sequence node and a target without storage. -/
theorem UnmarshalYAML_not_mapping_witness :
    UnmarshalYAML textYaml textType (noStorage String String)
        (.mk SequenceNode 0 "" "" [textNode "a", textNode "b"])
      = (noStorage String String, .error "pipeline must contain YAML mapping, has 2") :=
  UnmarshalYAML_not_mapping textYaml textType (noStorage String String)
    (.mk SequenceNode 0 "" "" [textNode "a", textNode "b"]) (by decide)

/-! ## The loop of UnmarshalYAML -/

theorem valueSlot_concrete {K V A : Type} (doc : Yaml K V A) (vt : ValueType V A)
    (hV : vt.isInterface = false) (valueNode : Node) :
    valueSlot doc vt valueNode = decodeDirect doc valueNode := by
  simp [valueSlot, hV]

/-- When every pair decodes, the loop stores all of them and returns nil. -/
theorem decodePairs_all {K V A : Type} [DecidableEq K] (doc : Yaml K V A)
    (vt : ValueType V A) (ps : List (Pair K V)) (content : List Node) (om : OrderedMap K V)
    (hdec : DecodesTo doc vt content ps) (hlen : content.length = 2 * ps.length) :
    decodePairs doc vt content om = (setAll om ps, .ok) := by
  rw [decodePairs_skip doc vt ps content om hdec, List.drop_of_length_le (by omega)]
  rfl

/-- When the pairs before pair `i` decode and pair `i` fails, the loop
returns the error of pair `i` with the earlier pairs stored. -/
theorem decodePairs_abort {K V A : Type} [DecidableEq K] (doc : Yaml K V A)
    (vt : ValueType V A) (ps : List (Pair K V)) (content : List Node) (om : OrderedMap K V)
    (keyNode : Node) (err : Error)
    (hdec : DecodesTo doc vt content ps)
    (hk : content[2 * ps.length]? = some keyNode)
    (hfail : doc.decodeKey keyNode = .error err ∨
      ∃ key valueNode, doc.decodeKey keyNode = .ok key ∧
        content[2 * ps.length + 1]? = some valueNode ∧
        valueSlot doc vt valueNode = .error err) :
    decodePairs doc vt content om = (setAll om ps, .error err) := by
  rw [decodePairs_skip doc vt ps content om hdec]
  have hlt : 2 * ps.length < content.length := by
    by_contra hge
    rw [List.getElem?_eq_none (by omega)] at hk
    cases hk
  rw [List.drop_eq_getElem_cons hlt]
  have hk1 : content[2 * ps.length] = keyNode := by
    rw [List.getElem?_eq_getElem hlt] at hk
    exact Option.some.inj hk
  rw [hk1]
  rcases hfail with hke | ⟨key, valueNode, hko, hv, hslot⟩
  · cases hrest : content.drop (2 * ps.length + 1) with
    | nil => simp [decodePairs, hke]
    | cons v rest => simp [decodePairs, hke]
  · have hlt1 : 2 * ps.length + 1 < content.length := by
      by_contra hge
      rw [List.getElem?_eq_none (by omega)] at hv
      cases hv
    rw [List.drop_eq_getElem_cons hlt1]
    have hv1 : content[2 * ps.length + 1] = valueNode := by
      rw [List.getElem?_eq_getElem hlt1] at hv
      exact Option.some.inj hv
    rw [hv1]
    simp [decodePairs, hko, hslot]

theorem UnmarshalYAML_reach {K V A : Type} [DecidableEq K] (doc : Yaml K V A)
    (vt : ValueType V A) (om : OrderedMap K V) (value : Node) (ps : List (Pair K V))
    (hkind : value.Kind = MappingNode) (hdec : DecodesTo doc vt value.Content ps) :
    UnmarshalYAML doc vt om value
      = unmarshalLoop doc vt value.Content (2 * ps.length) (setAll (lazyInit om) ps) := by
  rw [UnmarshalYAML_eq doc vt om value hkind,
    unmarshalLoop_eq_decodePairs doc vt value.Content _ _ _ rfl]
  exact decodePairs_skip doc vt ps value.Content _ hdec

/-- C1: round trip for a value type that is not an interface type. If every
key and value of the map `M` converts to a node that decodes back to it, then
`MarshalYAML` returns a node without error, and `UnmarshalYAML` of that node
into an empty target returns nil and leaves the target with the entries of
`M`: the same keys, the same value for each key, in the same order. -/
theorem round_trip_concrete {K V A : Type} [DecidableEq K] (doc : Yaml K V A)
    (vt : ValueType V A) (M target : OrderedMap K V)
    (hV : vt.isInterface = false)
    (hM : M.KeysUnique)
    (hempty : target.entries = [])
    (hkey : ∀ p ∈ M.entries, ∃ n, doc.encodeKey p.Key = .ok n ∧ doc.decodeKey n = .ok p.Key)
    (hval : ∀ p ∈ M.entries,
      ∃ n, doc.encodeValue p.Value = .ok n ∧ doc.decodeValue n = .ok p.Value) :
    ∃ node, MarshalYAML doc (some M) = (.node node, none) ∧
      (UnmarshalYAML doc vt target node).2 = .ok ∧
      (UnmarshalYAML doc vt target node).1.entries = M.entries := by
  obtain ⟨nodes, hrun, hlen, hidx⟩ :=
    marshalLoop_ok doc M.entries (.mk MappingNode 0 "" "" [])
      (fun p hp => (hkey p hp).imp fun _ h => h.1) (fun p hp => (hval p hp).imp fun _ h => h.1)
  have hdec : DecodesTo doc vt nodes M.entries := by
    intro j hj
    obtain ⟨p, kn, vn, hp, h0, h1, hek, hev⟩ := hidx j hj
    have hmem : p ∈ M.entries := List.getElem?_mem hp
    obtain ⟨n, hn, hdn⟩ := hkey p hmem
    obtain ⟨m, hm, hdm⟩ := hval p hmem
    rw [hek] at hn
    rw [hev] at hm
    cases hn
    cases hm
    refine ⟨kn, vn, p, h0, h1, hp, hdn, ?_⟩
    rw [valueSlot_concrete doc vt hV, decodeDirect, hdm]
  have hnode : ((Node.mk MappingNode 0 "" "" []).appendContent nodes).Content = nodes := by
    simp [Node.appendContent, Node.Content]
  refine ⟨(Node.mk MappingNode 0 "" "" []).appendContent nodes, hrun, ?_, ?_⟩
  · rw [UnmarshalYAML_eq doc vt target _ (by rfl), hnode,
      decodePairs_all doc vt M.entries nodes _ hdec hlen]
  · rw [UnmarshalYAML_eq doc vt target _ (by rfl), hnode,
      decodePairs_all doc vt M.entries nodes _ hdec hlen]
    simp only
    rw [entries_setAll, lazyInit_entries, hempty, foldl_upsert_of_nodup]
    · rfl
    · simpa [OrderedMap.KeysUnique] using hM

/-- C1, on the map with the entries `b: 1`, `a: 2` and a target without
storage. -/
theorem round_trip_concrete_witness :
    ∃ node, MarshalYAML textYaml (some sampleMap) = (.node node, none) ∧
      (UnmarshalYAML textYaml textType (noStorage String String) node).2 = .ok ∧
      (UnmarshalYAML textYaml textType (noStorage String String) node).1.entries
        = sampleMap.entries :=
  round_trip_concrete textYaml textType sampleMap (noStorage String String) rfl
    (by simp [OrderedMap.KeysUnique, OrderedMap.entries, sampleMap]) rfl
    (fun p _ => ⟨textNode p.Key, rfl, rfl⟩) (fun p _ => ⟨textNode p.Value, rfl, rfl⟩)

/-- C6 as stated fails: the four children of the mapping `a: x`, `a: y` all
decode, the target is empty and the value type is `string`, yet the decoded
map has one entry, not two. -/
theorem pairs_in_order_counterexample :
    duplicateKeys.Kind = MappingNode ∧ duplicateKeys.Content.length = 2 * 2 ∧
      (∀ n ∈ duplicateKeys.Content, ∃ s, decodeText n = .ok s) ∧
      textType.isInterface = false ∧ (New String String).entries = [] ∧
      (UnmarshalYAML textYaml textType (New String String) duplicateKeys).2 = .ok ∧
      (UnmarshalYAML textYaml textType (New String String) duplicateKeys).1.entries.length
        ≠ 2 := by
  refine ⟨rfl, rfl, ?_, rfl, rfl, ?_, ?_⟩
  · intro n hn
    simp only [duplicateKeys, Node.Content, List.mem_cons, List.mem_singleton,
      List.not_mem_nil, or_false] at hn
    rcases hn with rfl | rfl | rfl | rfl <;> exact ⟨_, rfl⟩
  · rw [UnmarshalYAML_eq _ _ _ _ (by rfl)]
    rfl
  · rw [UnmarshalYAML_eq _ _ _ _ (by rfl)]
    decide

/-- C6, amended: for a mapping node with `2n` children whose key nodes decode
to pairwise distinct keys and whose value nodes decode, `UnmarshalYAML` into
an empty target of a value type that is not an interface type returns nil and
leaves the map with exactly the `n` decoded pairs in document order: entry
`i` is (decoded key node `2i`, decoded value node `2i+1`). -/
theorem UnmarshalYAML_pairs_in_order {K V A : Type} [DecidableEq K] (doc : Yaml K V A)
    (vt : ValueType V A) (om : OrderedMap K V) (value : Node) (ps : List (Pair K V))
    (hkind : value.Kind = MappingNode) (hV : vt.isInterface = false)
    (hempty : om.entries = [])
    (hlen : value.Content.length = 2 * ps.length)
    (hdec : ∀ i, i < ps.length → ∃ keyNode valueNode p,
      value.Content[2 * i]? = some keyNode ∧ value.Content[2 * i + 1]? = some valueNode ∧
      ps[i]? = some p ∧
      doc.decodeKey keyNode = .ok p.Key ∧ doc.decodeValue valueNode = .ok p.Value)
    (hdistinct : (ps.map Pair.Key).Nodup) :
    (UnmarshalYAML doc vt om value).2 = .ok ∧
      (UnmarshalYAML doc vt om value).1.entries = ps := by
  have hdec1 : DecodesTo doc vt value.Content ps := by
    intro j hj
    obtain ⟨kn, vn, p, h0, h1, hp, hk, hv⟩ := hdec j hj
    refine ⟨kn, vn, p, h0, h1, hp, hk, ?_⟩
    rw [valueSlot_concrete doc vt hV, decodeDirect, hv]
  rw [UnmarshalYAML_eq doc vt om value hkind,
    decodePairs_all doc vt ps value.Content _ hdec1 hlen]
  refine ⟨rfl, ?_⟩
  simp only
  rw [entries_setAll, lazyInit_entries, hempty, foldl_upsert_of_nodup]
  · rfl
  · simpa using hdistinct

/-- C6 amended, on the mapping `b: 1`, `a: 2`. -/
theorem UnmarshalYAML_pairs_in_order_witness :
    (UnmarshalYAML textYaml textType (New String String)
        (.mk MappingNode 0 "!!map" "" [textNode "b", textNode "1", textNode "a", textNode "2"])).2
        = .ok ∧
      (UnmarshalYAML textYaml textType (New String String)
        (.mk MappingNode 0 "!!map" "" [textNode "b", textNode "1", textNode "a", textNode "2"])).1.entries
        = [⟨"b", "1"⟩, ⟨"a", "2"⟩] :=
  UnmarshalYAML_pairs_in_order textYaml textType (New String String)
    (.mk MappingNode 0 "!!map" "" [textNode "b", textNode "1", textNode "a", textNode "2"])
    [⟨"b", "1"⟩, ⟨"a", "2"⟩] rfl rfl rfl rfl
    (by
      intro i hi
      have hi2 : i < 2 := hi
      interval_cases i
      · exact ⟨textNode "b", textNode "1", ⟨"b", "1"⟩, rfl, rfl, rfl, rfl, rfl⟩
      · exact ⟨textNode "a", textNode "2", ⟨"a", "2"⟩, rfl, rfl, rfl, rfl, rfl⟩)
    (by decide)

theorem childError_add_two {K V A : Type} (doc : Yaml K V A) (j : Nat) (m : Node) :
    childError doc (j + 2) m = childError doc j m := by
  simp [childError, Nat.add_mod_right]

/-- For a value type that is not an interface type and an even number of
children: the loop returns nil exactly when every child decodes in its role,
and otherwise returns the error of the first child that does not. -/
theorem decodePairs_concrete {K V A : Type} [DecidableEq K] (doc : Yaml K V A)
    (vt : ValueType V A) (hV : vt.isInterface = false) :
    ∀ (n : Nat) (content : List Node) (om : OrderedMap K V), content.length = 2 * n →
      ((decodePairs doc vt content om).2 = .ok ↔
          ∀ j m, content[j]? = some m → childError doc j m = none) ∧
        (∀ j m err, content[j]? = some m → childError doc j m = some err →
          (∀ i m1, i < j → content[i]? = some m1 → childError doc i m1 = none) →
          (decodePairs doc vt content om).2 = .error err) := by
  intro n
  induction n with
  | zero =>
    intro content om hlen
    have hnil : content = [] := List.length_eq_zero.mp (by simpa using hlen)
    subst hnil
    simp [decodePairs]
  | succ n ih =>
    intro content om hlen
    rcases content with _ | ⟨k, content⟩
    · simp at hlen
    rcases content with _ | ⟨v, rest⟩
    · simp at hlen; omega
    have hrest : rest.length = 2 * n := by simp at hlen; omega
    have hk0 : ∀ e, childError doc 0 k = e ↔
        (match doc.decodeKey k with | .ok _ => none | .error err => some err) = e := by
      intro e; simp [childError]
    have hv1 : ∀ e, childError doc 1 v = e ↔
        (match doc.decodeValue v with | .ok _ => none | .error err => some err) = e := by
      intro e; simp [childError]
    cases hk : doc.decodeKey k with
    | error e =>
      have hce : childError doc 0 k = some e := by rw [hk0, hk]
      constructor
      · simp only [decodePairs, hk]
        constructor
        · intro h; cases h
        · intro h
          have := h 0 k (by simp)
          rw [hce] at this
          cases this
      · intro j m err hj hjerr hfirst
        simp only [decodePairs, hk]
        cases j with
        | zero =>
          simp at hj
          subst hj
          rw [hce] at hjerr
          cases hjerr
          rfl
        | succ j =>
          have := hfirst 0 k (by omega) (by simp)
          rw [hce] at this
          cases this
    | ok key =>
      have hck : childError doc 0 k = none := by rw [hk0, hk]
      cases hv : doc.decodeValue v with
      | error e =>
        have hce : childError doc 1 v = some e := by rw [hv1, hv]
        have hrun : decodePairs doc vt (k :: v :: rest) om = (om, .error e) := by
          simp [decodePairs, hk, valueSlot_concrete doc vt hV, decodeDirect, hv]
        rw [hrun]
        constructor
        · constructor
          · intro h; cases h
          · intro h
            have := h 1 v (by simp)
            rw [hce] at this
            cases this
        · intro j m err hj hjerr hfirst
          match j, hj, hjerr, hfirst with
          | 0, hj, hjerr, _ =>
            simp at hj
            subst hj
            rw [hck] at hjerr
            cases hjerr
          | 1, hj, hjerr, _ =>
            simp at hj
            subst hj
            rw [hce] at hjerr
            cases hjerr
            rfl
          | j + 2, _, _, hfirst =>
            have := hfirst 1 v (by omega) (by simp)
            rw [hce] at this
            cases this
      | ok val =>
        have hcv : childError doc 1 v = none := by rw [hv1, hv]
        have hrun : decodePairs doc vt (k :: v :: rest) om
            = decodePairs doc vt rest (om.Set key val) := by
          simp [decodePairs, hk, valueSlot_concrete doc vt hV, decodeDirect, hv]
        rw [hrun]
        obtain ⟨ih1, ih2⟩ := ih rest (om.Set key val) hrest
        constructor
        · rw [ih1]
          constructor
          · intro h j m hj
            match j, hj with
            | 0, hj => simp at hj; subst hj; exact hck
            | 1, hj => simp at hj; subst hj; exact hcv
            | j + 2, hj =>
              rw [childError_add_two]
              exact h j m (by simpa using hj)
          · intro h j m hj
            rw [← childError_add_two]
            exact h (j + 2) m (by simpa using hj)
        · intro j m err hj hjerr hfirst
          match j, hj, hjerr, hfirst with
          | 0, hj, hjerr, _ =>
            simp at hj
            subst hj
            rw [hck] at hjerr
            cases hjerr
          | 1, hj, hjerr, _ =>
            simp at hj
            subst hj
            rw [hcv] at hjerr
            cases hjerr
          | j + 2, hj, hjerr, hfirst =>
            rw [childError_add_two] at hjerr
            refine ih2 j m err (by simpa using hj) hjerr ?_
            intro i m1 hi hm1
            rw [← childError_add_two]
            exact hfirst (i + 2) m1 (by omega) (by simpa using hm1)

/-- C7: for a value type that is not an interface type and a mapping node
with an even number of children, `UnmarshalYAML` returns nil if and only if
every key node decodes into the key type and every value node into the value
type; when a child fails to decode and all children before it decode, the
error returned is that child's, so a single invalid node among valid ones
makes the call return its error. -/
theorem UnmarshalYAML_ok_iff {K V A : Type} [DecidableEq K] (doc : Yaml K V A)
    (vt : ValueType V A) (om : OrderedMap K V) (value : Node)
    (hkind : value.Kind = MappingNode) (hV : vt.isInterface = false)
    (heven : value.Content.length % 2 = 0) :
    ((UnmarshalYAML doc vt om value).2 = .ok ↔
        ∀ j n, value.Content[j]? = some n → childError doc j n = none) ∧
      (∀ j n err, value.Content[j]? = some n → childError doc j n = some err →
        (∀ i m, i < j → value.Content[i]? = some m → childError doc i m = none) →
        (UnmarshalYAML doc vt om value).2 = .error err) := by
  rw [UnmarshalYAML_eq doc vt om value hkind]
  exact decodePairs_concrete doc vt hV (value.Content.length / 2) value.Content _ (by omega)

/-- C7, on the mapping `a: x`, `b: []`, `c: z` decoded into a map of strings:
the sequence at position 3 is the only child that does not decode, and the
call returns its error. -/
theorem UnmarshalYAML_ok_iff_witness :
    (UnmarshalYAML textYaml textType (New String String) badSecondValue).2
      = .error "cannot unmarshal into string" :=
  (UnmarshalYAML_ok_iff textYaml textType (New String String) badSecondValue rfl rfl rfl).2
    3 (.mk SequenceNode 0 "!!seq" "" []) "cannot unmarshal into string" rfl rfl
    (by
      intro i m hi hm
      interval_cases i
      · cases hm; rfl
      · cases hm; rfl
      · cases hm; rfl)

/-- One iteration of the loop on a pair whose key decodes. -/
theorem unmarshalLoop_step {K V A : Type} [DecidableEq K] (doc : Yaml K V A)
    (vt : ValueType V A) (content : List Node) (index : Nat) (om : OrderedMap K V)
    (keyNode valueNode : Node) (key : K)
    (hk : content[index]? = some keyNode) (hv : content[index + 1]? = some valueNode)
    (hkey : doc.decodeKey keyNode = .ok key) :
    unmarshalLoop doc vt content index om =
      match valueSlot doc vt valueNode with
      | .error err => (om, .error err)
      | .panic => (om, .panic)
      | .store val => unmarshalLoop doc vt content (index + 2) (om.Set key val) := by
  have hlt : index < content.length := by
    by_contra hge
    rw [List.getElem?_eq_none (by omega)] at hk
    cases hk
  have hk1 : content[index] = keyNode := by
    rw [List.getElem?_eq_getElem hlt] at hk
    exact Option.some.inj hk
  rw [unmarshalLoop, dif_pos hlt, hk1, hkey, hv]

theorem valueSlot_null {K V A : Type} (doc : Yaml K V A) (vt : ValueType V A)
    (valueNode : Node) (hV : vt.isInterface = true) (hnull : valueNode.Value = "null") :
    valueSlot doc vt valueNode = .store vt.zero := by
  simp [valueSlot, hV, (bytesEqual_null_iff valueNode.Value).mpr hnull]

theorem valueSlot_resolved {K V A : Type} (doc : Yaml K V A) (vt : ValueType V A)
    (valueNode : Node) (om1 : Candidate A) (val : V)
    (hV : vt.isInterface = true) (hnotnull : valueNode.Value ≠ "null")
    (hres : tryDecodeToOrderedMap (doc.decodeCandidate valueNode) = (some om1, none))
    (hassert : vt.assert om1 = some val) :
    valueSlot doc vt valueNode = .store val := by
  have hb : bytesEqual (bytesOf valueNode.Value) JSONNullBytes = false := by
    rw [Bool.eq_false_iff]
    intro h
    exact hnotnull ((bytesEqual_null_iff _).mp h)
  simp [valueSlot, hV, hb, hres, hassert]

theorem valueSlot_unresolved {K V A : Type} (doc : Yaml K V A) (vt : ValueType V A)
    (valueNode : Node) (rerr : Error)
    (hV : vt.isInterface = true) (hnotnull : valueNode.Value ≠ "null")
    (hres : (tryDecodeToOrderedMap (doc.decodeCandidate valueNode)).2 = some rerr) :
    valueSlot doc vt valueNode = decodeDirect doc valueNode := by
  have hb : bytesEqual (bytesOf valueNode.Value) JSONNullBytes = false := by
    rw [Bool.eq_false_iff]
    intro h
    exact hnotnull ((bytesEqual_null_iff _).mp h)
  rcases h : tryDecodeToOrderedMap (doc.decodeCandidate valueNode) with ⟨r1, r2⟩
  rw [h] at hres
  simp only at hres
  subst hres
  simp [valueSlot, hV, hb, h]

/-- C8: no rollback. When the pairs before pair `i` decode and the key or the
value of pair `i` fails to decode, `UnmarshalYAML` returns that error and the
target is the map obtained from the initial one (with its storage allocated)
by `Set` on pairs `0..i-1` in document order: its entries are the upserts of
those pairs into the initial entries, pair `i` and the later ones are not
inserted, and nothing is removed. -/
theorem UnmarshalYAML_no_rollback {K V A : Type} [DecidableEq K] (doc : Yaml K V A)
    (vt : ValueType V A) (om : OrderedMap K V) (value : Node) (ps : List (Pair K V))
    (keyNode : Node) (err : Error)
    (hkind : value.Kind = MappingNode)
    (hbefore : DecodesTo doc vt value.Content ps)
    (hk : value.Content[2 * ps.length]? = some keyNode)
    (hfail : doc.decodeKey keyNode = .error err ∨
      ∃ key valueNode, doc.decodeKey keyNode = .ok key ∧
        value.Content[2 * ps.length + 1]? = some valueNode ∧
        valueSlot doc vt valueNode = .error err) :
    UnmarshalYAML doc vt om value = (setAll (lazyInit om) ps, .error err) ∧
      (UnmarshalYAML doc vt om value).1.entries
        = ps.foldl (fun l p => upsert p.Key p.Value l) om.entries := by
  have hrun := decodePairs_abort doc vt ps value.Content (lazyInit om) keyNode err hbefore hk hfail
  rw [UnmarshalYAML_eq doc vt om value hkind, hrun]
  refine ⟨rfl, ?_⟩
  simp only
  rw [entries_setAll, lazyInit_entries]

/-- C8, on the mapping `a: x`, `b: []`, `c: z` decoded into the map `b: 1`,
`a: 2`: the value of the second pair fails, the first pair has been stored
and the third has not. -/
theorem UnmarshalYAML_no_rollback_witness :
    UnmarshalYAML textYaml textType sampleMap badSecondValue
        = (setAll (lazyInit sampleMap) [⟨"a", "x"⟩], .error "cannot unmarshal into string") ∧
      (UnmarshalYAML textYaml textType sampleMap badSecondValue).1.entries
        = [⟨"b", "1"⟩, ⟨"a", "x"⟩] :=
  UnmarshalYAML_no_rollback textYaml textType sampleMap badSecondValue [⟨"a", "x"⟩]
    (textNode "b") "cannot unmarshal into string" rfl
    (by
      intro j hj
      have hj1 : j < 1 := hj
      interval_cases j
      exact ⟨textNode "a", textNode "x", ⟨"a", "x"⟩, rfl, rfl, rfl, rfl, rfl⟩)
    rfl
    (Or.inr ⟨"b", .mk SequenceNode 0 "!!seq" "" [], rfl, rfl, rfl⟩)

/-- C9: for an interface-typed value type (`any`), a pair whose key decodes
and whose value node has the payload `null` is stored with the zero value of
the value type, and the loop goes on with the next pair. This is stated for
the call as a whole, at a pair the loop reaches (the pairs before it decode),
and for one iteration of the loop in any state. The value of the pair is the
zero value whatever the nested-map resolver and the direct decode would do on
the value node, so neither is consulted. -/
theorem UnmarshalYAML_null_value {K V A : Type} [DecidableEq K] (doc : Yaml K V A)
    (vt : ValueType V A) (om : OrderedMap K V) (value : Node) (ps : List (Pair K V))
    (keyNode valueNode : Node) (key : K)
    (hkind : value.Kind = MappingNode) (hV : vt.isInterface = true)
    (hbefore : DecodesTo doc vt value.Content ps)
    (hk : value.Content[2 * ps.length]? = some keyNode)
    (hv : value.Content[2 * ps.length + 1]? = some valueNode)
    (hkey : doc.decodeKey keyNode = .ok key) (hnull : valueNode.Value = "null") :
    UnmarshalYAML doc vt om value
        = unmarshalLoop doc vt value.Content (2 * ps.length + 2)
            ((setAll (lazyInit om) ps).Set key vt.zero) ∧
      (∀ (decodeValue1 : Node → Except Error V)
        (decodeCandidate1 : Node → Candidate A → Candidate A × Option Error),
        valueSlot { doc with decodeValue := decodeValue1, decodeCandidate := decodeCandidate1 }
          vt valueNode = .store vt.zero) ∧
      (∀ (index : Nat) (state : OrderedMap K V) (kn vn : Node) (k : K),
        value.Content[index]? = some kn → value.Content[index + 1]? = some vn →
        doc.decodeKey kn = .ok k → vn.Value = "null" →
        unmarshalLoop doc vt value.Content index state
          = unmarshalLoop doc vt value.Content (index + 2) (state.Set k vt.zero)) := by
  refine ⟨?_, ?_, ?_⟩
  · rw [UnmarshalYAML_reach doc vt om value ps hkind hbefore,
      unmarshalLoop_step doc vt value.Content _ _ keyNode valueNode key hk hv hkey,
      valueSlot_null doc vt valueNode hV hnull]
  · intro dv dc
    exact valueSlot_null _ vt valueNode hV hnull
  · intro index state kn vn k h0 h1 hdk hvn
    rw [unmarshalLoop_step doc vt value.Content index state kn vn k h0 h1 hdk,
      valueSlot_null doc vt vn hV hvn]

/-- C9, on the mapping `k: null` decoded into a map of `any`: the key `k` is
stored with nil. -/
theorem UnmarshalYAML_null_value_witness :
    UnmarshalYAML anyYaml anyType (New String AnyValue) nullValueDoc
      = ((New String AnyValue).Set "k" AnyValue.nil, .ok) :=
  (UnmarshalYAML_null_value anyYaml anyType (New String AnyValue) nullValueDoc []
    (textNode "k") (.mk ScalarNode 0 "!!null" "null" []) "k" rfl rfl
    (by intro j hj; cases hj) rfl rfl rfl rfl).1.trans
    (by rw [unmarshalLoop_eq_decodePairs _ _ _ _ _ _ rfl]; rfl)

/-- C10: for an interface-typed value type (`any`) and a pair whose key
decodes and whose value node's payload is not `null`. If the nested-map
resolver succeeds on the value node, the key is stored with the resolver's
map (asserted to the value type) and the loop goes on, whatever the direct
decode would do on the value node. If the resolver fails, the key is stored
with the result of the direct decode when that succeeds, and when it fails
`UnmarshalYAML` returns the error of the direct decode; the resolver's error
is dropped. This is stated for the call as a whole, at a pair the loop
reaches (the pairs before it decode), and for one iteration of the loop in
any state. -/
theorem UnmarshalYAML_nested_or_direct {K V A : Type} [DecidableEq K] (doc : Yaml K V A)
    (vt : ValueType V A) (om : OrderedMap K V) (value : Node) (ps : List (Pair K V))
    (keyNode valueNode : Node) (key : K)
    (hkind : value.Kind = MappingNode) (hV : vt.isInterface = true)
    (hbefore : DecodesTo doc vt value.Content ps)
    (hk : value.Content[2 * ps.length]? = some keyNode)
    (hv : value.Content[2 * ps.length + 1]? = some valueNode)
    (hkey : doc.decodeKey keyNode = .ok key) (hnotnull : valueNode.Value ≠ "null") :
    (∀ om1 val, tryDecodeToOrderedMap (doc.decodeCandidate valueNode) = (some om1, none) →
        vt.assert om1 = some val →
        UnmarshalYAML doc vt om value
            = unmarshalLoop doc vt value.Content (2 * ps.length + 2)
                ((setAll (lazyInit om) ps).Set key val) ∧
          ∀ decodeValue1 : Node → Except Error V,
            valueSlot { doc with decodeValue := decodeValue1 } vt valueNode = .store val) ∧
      (∀ rerr, (tryDecodeToOrderedMap (doc.decodeCandidate valueNode)).2 = some rerr →
        (∀ val, doc.decodeValue valueNode = .ok val →
          UnmarshalYAML doc vt om value
            = unmarshalLoop doc vt value.Content (2 * ps.length + 2)
                ((setAll (lazyInit om) ps).Set key val)) ∧
        (∀ err, doc.decodeValue valueNode = .error err →
          UnmarshalYAML doc vt om value = (setAll (lazyInit om) ps, .error err))) ∧
      (∀ (index : Nat) (state : OrderedMap K V) (kn vn : Node) (k : K),
        value.Content[index]? = some kn → value.Content[index + 1]? = some vn →
        doc.decodeKey kn = .ok k → vn.Value ≠ "null" →
        (∀ om1 val, tryDecodeToOrderedMap (doc.decodeCandidate vn) = (some om1, none) →
          vt.assert om1 = some val →
          unmarshalLoop doc vt value.Content index state
            = unmarshalLoop doc vt value.Content (index + 2) (state.Set k val)) ∧
        (∀ rerr, (tryDecodeToOrderedMap (doc.decodeCandidate vn)).2 = some rerr →
          (∀ val, doc.decodeValue vn = .ok val →
            unmarshalLoop doc vt value.Content index state
              = unmarshalLoop doc vt value.Content (index + 2) (state.Set k val)) ∧
          (∀ err, doc.decodeValue vn = .error err →
            unmarshalLoop doc vt value.Content index state = (state, .error err)))) := by
  have hstep := unmarshalLoop_step doc vt value.Content (2 * ps.length)
    (setAll (lazyInit om) ps) keyNode valueNode key hk hv hkey
  have hreach := UnmarshalYAML_reach doc vt om value ps hkind hbefore
  refine ⟨?_, ?_, ?_⟩
  · intro om1 val hres hassert
    constructor
    · rw [hreach, hstep, valueSlot_resolved doc vt valueNode om1 val hV hnotnull hres hassert]
    · intro dv
      exact valueSlot_resolved _ vt valueNode om1 val hV hnotnull hres hassert
  · intro rerr hres
    have hslot := valueSlot_unresolved doc vt valueNode rerr hV hnotnull hres
    constructor
    · intro val hval
      rw [hreach, hstep, hslot, decodeDirect, hval]
    · intro err herr
      rw [hreach, hstep, hslot, decodeDirect, herr]
  · intro index state kn vn k h0 h1 hdk hvn
    have hstep1 := unmarshalLoop_step doc vt value.Content index state kn vn k h0 h1 hdk
    refine ⟨?_, ?_⟩
    · intro om1 val hres hassert
      rw [hstep1, valueSlot_resolved doc vt vn om1 val hV hvn hres hassert]
    · intro rerr hres
      have hslot := valueSlot_unresolved doc vt vn rerr hV hvn hres
      constructor
      · intro val hval
        rw [hstep1, hslot, decodeDirect, hval]
      · intro err herr
        rw [hstep1, hslot, decodeDirect, herr]

/-- C10, on the mapping whose pair `k` has an empty mapping as its value,
decoded into a map of `any`: the resolver returns its first candidate, an
`int`-keyed map, and `k` is stored with it. -/
theorem UnmarshalYAML_nested_or_direct_witness :
    UnmarshalYAML anyYaml anyType (New String AnyValue) nestedEmptyDoc
      = ((New String AnyValue).Set "k" (.omap (.int (New Int AnyValue))), .ok) :=
  (((UnmarshalYAML_nested_or_direct anyYaml anyType (New String AnyValue) nestedEmptyDoc []
    (textNode "k") (.mk MappingNode 0 "!!map" "" []) "k" rfl rfl
    (by intro j hj; cases hj) rfl rfl rfl (by decide)).1
      (.int (New Int AnyValue)) (.omap (.int (New Int AnyValue))) rfl rfl).1).trans
    (by rw [unmarshalLoop_eq_decodePairs _ _ _ _ _ _ rfl]; rfl)

/-! ## tryDecodeToOrderedMap -/

/-- The loop returns the candidate of the first trial that succeeds. -/
theorem tryLoop_first {A : Type} (decoderFunc : Candidate A → Candidate A × Option Error) :
    ∀ (pre : List (Unit → Candidate A)) (f : Unit → Candidate A) (post : List (Unit → Candidate A)),
      (∀ g ∈ pre, (decoderFunc (g ())).2 ≠ none) → (decoderFunc (f ())).2 = none →
      tryLoop decoderFunc (pre ++ f :: post) = (some (decoderFunc (f ())).1, none) := by
  intro pre
  induction pre with
  | nil =>
    intro f post _ hf
    rcases h : decoderFunc (f ()) with ⟨c, e⟩
    rw [h] at hf
    simp only at hf
    subst hf
    simp [tryLoop, h]
  | cons g pre ih =>
    intro f post hpre hf
    rcases h : decoderFunc (g ()) with ⟨c, e⟩
    have hg := hpre g (by simp)
    rw [h] at hg
    cases e with
    | none => exact absurd rfl hg
    | some err =>
      simp only [List.cons_append, tryLoop, h]
      exact ih f post (fun g1 hg1 => hpre g1 (by simp [hg1])) hf

/-- The loop returns an error exactly when every trial fails, and then it is
the error of line 115 with a nil value. -/
theorem tryLoop_error {A : Type} (decoderFunc : Candidate A → Candidate A × Option Error) :
    ∀ l : List (Unit → Candidate A),
      ((tryLoop decoderFunc l).2 ≠ none ↔ ∀ f ∈ l, (decoderFunc (f ())).2 ≠ none) ∧
      ((tryLoop decoderFunc l).2 ≠ none →
        tryLoop decoderFunc l = (none, some "could not decode to an ordered map")) ∧
      ((tryLoop decoderFunc l).2 = none → ∃ c, (tryLoop decoderFunc l).1 = some c) := by
  intro l
  induction l with
  | nil => simp [tryLoop]
  | cons g l ih =>
    rcases h : decoderFunc (g ()) with ⟨c, e⟩
    cases e with
    | none => simp [tryLoop, h]
    | some err =>
      simp only [tryLoop, h, List.mem_cons, forall_eq_or_imp]
      refine ⟨?_, ih.2.1, ih.2.2⟩
      rw [ih.1]
      simp

/-- C11: first success wins. There are seven candidates, each created as an
empty map. When the trial of a candidate succeeds and the trials of all
candidates before it fail, `tryDecodeToOrderedMap` returns, with no error,
that candidate as its own trial left it; the result is the same for every
decode function that agrees on the candidates up to that one, so later
candidates are not consulted. An error is returned if and only if all seven
trials fail, and then the value is nil. -/
theorem tryDecodeToOrderedMap_first_success {A : Type}
    (decoderFunc : Candidate A → Candidate A × Option Error) :
    (possibilities A).length = 7 ∧
      (∀ f ∈ possibilities A, (f ()).entryCount = 0) ∧
      (∀ pre f post, possibilities A = pre ++ f :: post →
        (∀ g ∈ pre, (decoderFunc (g ())).2 ≠ none) → (decoderFunc (f ())).2 = none →
        tryDecodeToOrderedMap decoderFunc = (some (decoderFunc (f ())).1, none) ∧
        ∀ decoderFunc2 : Candidate A → Candidate A × Option Error,
          (∀ g ∈ pre, decoderFunc2 (g ()) = decoderFunc (g ())) →
          decoderFunc2 (f ()) = decoderFunc (f ()) →
          tryDecodeToOrderedMap decoderFunc2 = tryDecodeToOrderedMap decoderFunc) ∧
      ((tryDecodeToOrderedMap decoderFunc).2 ≠ none ↔
        ∀ f ∈ possibilities A, (decoderFunc (f ())).2 ≠ none) ∧
      ((tryDecodeToOrderedMap decoderFunc).2 ≠ none →
        tryDecodeToOrderedMap decoderFunc = (none, some "could not decode to an ordered map")) := by
  refine ⟨rfl, ?_, ?_, (tryLoop_error decoderFunc _).1, (tryLoop_error decoderFunc _).2.1⟩
  · intro f hf
    simp only [possibilities, List.mem_cons, List.mem_singleton, List.not_mem_nil, or_false] at hf
    rcases hf with rfl | rfl | rfl | rfl | rfl | rfl | rfl <;> rfl
  · intro pre f post hsplit hpre hf
    have h1 : tryDecodeToOrderedMap decoderFunc = (some (decoderFunc (f ())).1, none) := by
      unfold tryDecodeToOrderedMap
      rw [hsplit]
      exact tryLoop_first decoderFunc pre f post hpre hf
    refine ⟨h1, ?_⟩
    intro d2 hagree hf2
    rw [h1]
    unfold tryDecodeToOrderedMap
    rw [hsplit, tryLoop_first d2 pre f post
      (fun g hg => by rw [hagree g hg]; exact hpre g hg) (by rw [hf2]; exact hf), hf2]

/-- C11, on a decode function that fails for the `int` and `int32` candidates
and accepts the `int64` one: the `int64` candidate is returned. -/
theorem tryDecodeToOrderedMap_first_success_witness :
    tryDecodeToOrderedMap
        (fun c : Candidate AnyValue =>
          (c, if c.keyType = .int ∨ c.keyType = .int32 then some "no" else none))
      = (some (.int64 (New Int AnyValue)), none) :=
  ((tryDecodeToOrderedMap_first_success
      (fun c : Candidate AnyValue =>
        (c, if c.keyType = .int ∨ c.keyType = .int32 then some "no" else none))).2.2.1
    [fun _ => .int (New Int AnyValue), fun _ => .int32 (New Int AnyValue)]
    (fun _ => .int64 (New Int AnyValue))
    [fun _ => .uint (New Nat AnyValue), fun _ => .uint32 (New Nat AnyValue),
      fun _ => .uint64 (New Nat AnyValue), fun _ => .string (New String AnyValue)]
    rfl
    (by
      intro g hg
      simp only [List.mem_cons, List.mem_singleton, List.not_mem_nil, or_false] at hg
      rcases hg with rfl | rfl <;> simp [Candidate.keyType])
    rfl).1

/-- C12 as stated fails where `int` is 64 bits wide: `int32` is narrower than
`int`, both are signed, and `int` is tried first. -/
theorem narrower_first_counterexample :
    KeyType.bits 64 .int32 = some 32 ∧ KeyType.bits 64 .int = some 64 ∧
      KeyType.int.position < KeyType.int32.position ∧ ¬ NarrowerFirst 64 := by
  refine ⟨rfl, rfl, by decide, ?_⟩
  intro h
  have := h .int32 .int (Or.inl ⟨rfl, rfl⟩) 32 64 rfl rfl (by norm_num)
  revert this
  decide

/-- C12, amended: the candidate key types are tried in the order `int`,
`int32`, `int64`, `uint`, `uint32`, `uint64`, `string`, for every type of the
values. So every integer candidate is tried before `string`, the 32-bit type
before the 64-bit type of the same signedness, and `int` and `uint`, which
have the width of the platform, first among the signed and the unsigned
ones; where that width is 32 bits no wider type is tried before a narrower
one. -/
theorem candidate_order (A : Type) :
    (possibilities A).map (fun possibilityFunc => (possibilityFunc ()).keyType)
        = [.int, .int32, .int64, .uint, .uint32, .uint64, .string] ∧
      candidateOrder = [.int, .int32, .int64, .uint, .uint32, .uint64, .string] ∧
      (∀ kt : KeyType, kt ≠ .string → kt.position < KeyType.string.position) ∧
      KeyType.int.position < KeyType.int32.position ∧
      KeyType.int32.position < KeyType.int64.position ∧
      KeyType.uint.position < KeyType.uint32.position ∧
      KeyType.uint32.position < KeyType.uint64.position ∧
      NarrowerFirst 32 := by
  refine ⟨rfl, rfl, ?_, by decide, by decide, by decide, by decide, ?_⟩
  · intro kt hkt
    cases kt <;> first | decide | exact absurd rfl hkt
  · intro a b hab wa wb ha hb hlt
    cases a <;> cases b <;> simp [KeyType.bits] at ha hb <;> subst ha <;> subst hb <;>
      first
        | omega
        | decide
        | (simp [KeyType.signed, KeyType.unsigned] at hab)

/-- C19: for an interface-typed value type, two value nodes whose payload is
`null` give the same stored value, the zero value, whatever their kind, tag,
style and children, and whatever the resolver and the direct decode would do
on them; so two mappings that differ only in such a value node decode
alike. -/
theorem null_check_reads_payload_only {K V A : Type} [DecidableEq K] (doc : Yaml K V A)
    (vt : ValueType V A) (om : OrderedMap K V) (keyNode n1 n2 : Node)
    (style : Nat) (tag payload : String)
    (hV : vt.isInterface = true) (h1 : n1.Value = "null") (h2 : n2.Value = "null") :
    valueSlot doc vt n1 = .store vt.zero ∧ valueSlot doc vt n2 = .store vt.zero ∧
      (∀ (decodeValue1 : Node → Except Error V)
        (decodeCandidate1 : Node → Candidate A → Candidate A × Option Error),
        valueSlot { doc with decodeValue := decodeValue1, decodeCandidate := decodeCandidate1 }
            vt n1 = .store vt.zero ∧
          valueSlot { doc with decodeValue := decodeValue1, decodeCandidate := decodeCandidate1 }
            vt n2 = .store vt.zero) ∧
      UnmarshalYAML doc vt om (.mk MappingNode style tag payload [keyNode, n1])
        = UnmarshalYAML doc vt om (.mk MappingNode style tag payload [keyNode, n2]) := by
  refine ⟨valueSlot_null doc vt n1 hV h1, valueSlot_null doc vt n2 hV h2, ?_, ?_⟩
  · intro dv dc
    exact ⟨valueSlot_null _ vt n1 hV h1, valueSlot_null _ vt n2 hV h2⟩
  · rw [UnmarshalYAML_eq doc vt om _ (by rfl), UnmarshalYAML_eq doc vt om _ (by rfl)]
    simp only [Node.Content, decodePairs, valueSlot_null doc vt n1 hV h1,
      valueSlot_null doc vt n2 hV h2]

/-- C19, on the plain null scalar and the double-quoted string scalar
`"null"` as the value of the key `k`: both are stored as nil. -/
theorem null_check_reads_payload_only_witness :
    UnmarshalYAML anyYaml anyType (New String AnyValue)
        (.mk MappingNode 0 "!!map" ""
          [textNode "k", .mk ScalarNode DoubleQuotedStyle "!!str" "null" []])
      = ((New String AnyValue).Set "k" AnyValue.nil, .ok) ∧
    UnmarshalYAML anyYaml anyType (New String AnyValue)
        (.mk MappingNode 0 "!!map" "" [textNode "k", .mk ScalarNode 0 "!!null" "null" []])
      = UnmarshalYAML anyYaml anyType (New String AnyValue)
        (.mk MappingNode 0 "!!map" ""
          [textNode "k", .mk ScalarNode DoubleQuotedStyle "!!str" "null" []]) :=
  ⟨by rw [UnmarshalYAML_eq _ _ _ _ (by rfl)]; rfl,
    (null_check_reads_payload_only anyYaml anyType (New String AnyValue) (textNode "k")
      (.mk ScalarNode 0 "!!null" "null" []) (.mk ScalarNode DoubleQuotedStyle "!!str" "null" [])
      0 "!!map" "" rfl rfl rfl).2.2.2⟩

/-! ## The generic slot and the value type -/

/-- The resolver returns a candidate or an error, never neither. -/
theorem tryDecodeToOrderedMap_cases {A : Type}
    (decoderFunc : Candidate A → Candidate A × Option Error) :
    (∃ c, tryDecodeToOrderedMap decoderFunc = (some c, none)) ∨
      tryDecodeToOrderedMap decoderFunc = (none, some "could not decode to an ordered map") := by
  by_cases h : (tryDecodeToOrderedMap decoderFunc).2 = none
  · left
    obtain ⟨c, hc⟩ := (tryLoop_error decoderFunc (possibilities A)).2.2 h
    exact ⟨c, Prod.ext hc h⟩
  · right
    exact (tryLoop_error decoderFunc (possibilities A)).2.1 h

/-- C17 as stated fails for an interface type other than `any`. The value
type `errorType` is an interface type to which no candidate map can be
asserted. The generic-slot handling is applied to it: the value `null` of the
mapping `k: null` is stored as the zero value although the direct decode of
the layer `errorYaml` refuses that node. And storing a resolved nested map
fails: on the mapping
whose pair `k` has an empty mapping as its value the resolver succeeds and
the call panics at the type assertion. -/
theorem generic_slot_counterexample :
    errorType.isInterface = true ∧ (∀ c, errorType.assert c = none) ∧
      errorYaml.decodeValue (.mk ScalarNode 0 "!!null" "null" [])
        = .error "cannot unmarshal into an interface with methods" ∧
      UnmarshalYAML errorYaml errorType (New String (Option String)) nullValueDoc
        = ((New String (Option String)).Set "k" none, .ok) ∧
      tryDecodeToOrderedMap (errorYaml.decodeCandidate (.mk MappingNode 0 "!!map" "" []))
        = (some (.int (New Int AnyValue)), none) ∧
      UnmarshalYAML errorYaml errorType (New String (Option String)) nestedEmptyDoc
        = (New String (Option String), .panic) := by
  refine ⟨rfl, fun _ => rfl, rfl, ?_, rfl, ?_⟩
  · rw [UnmarshalYAML_eq _ _ _ _ (by rfl)]; rfl
  · rw [UnmarshalYAML_eq _ _ _ _ (by rfl)]; rfl

/-- C17, amended: the generic-slot handling is applied exactly when the value
type is an interface type. For a value type that is not one, the value of a
pair is the direct decode of its node. For an interface type a payload `null`
gives the zero value and, otherwise, a successful resolver decides the value
by the type assertion alone. When every candidate map can be asserted to the
value type, as for `any`, a successful resolver always gives a value to
store, so the insert does not fail. -/
theorem generic_slot_by_value_type {K V A : Type} (doc : Yaml K V A) (vt : ValueType V A)
    (valueNode : Node) :
    (vt.isInterface = false → valueSlot doc vt valueNode = decodeDirect doc valueNode) ∧
      (vt.isInterface = true → valueNode.Value = "null" →
        valueSlot doc vt valueNode = .store vt.zero) ∧
      (vt.isInterface = true → valueNode.Value ≠ "null" →
        ∀ om1, tryDecodeToOrderedMap (doc.decodeCandidate valueNode) = (some om1, none) →
          valueSlot doc vt valueNode
            = match vt.assert om1 with
              | some val => .store val
              | none => .panic) ∧
      (vt.isInterface = true → (∀ c, ∃ val, vt.assert c = some val) →
        valueNode.Value ≠ "null" →
        ∀ om1, tryDecodeToOrderedMap (doc.decodeCandidate valueNode) = (some om1, none) →
          ∃ val, vt.assert om1 = some val ∧ valueSlot doc vt valueNode = .store val) := by
  refine ⟨fun hV => valueSlot_concrete doc vt hV valueNode,
    fun hV hnull => valueSlot_null doc vt valueNode hV hnull, ?_, ?_⟩
  · intro hV hnotnull om1 hres
    have hb : bytesEqual (bytesOf valueNode.Value) JSONNullBytes = false := by
      rw [Bool.eq_false_iff]
      intro h
      exact hnotnull ((bytesEqual_null_iff _).mp h)
    simp [valueSlot, hV, hb, hres]
  · intro hV hany hnotnull om1 hres
    obtain ⟨val, hval⟩ := hany om1
    exact ⟨val, hval, valueSlot_resolved doc vt valueNode om1 val hV hnotnull hres hval⟩

/-- C17 amended, on the value type `any` and an empty mapping as the value
node: the resolver's `int`-keyed map is the value to store. -/
theorem generic_slot_by_value_type_witness :
    ∃ val, anyType.assert (.int (New Int AnyValue)) = some val ∧
      valueSlot anyYaml anyType (.mk MappingNode 0 "!!map" "" []) = .store val :=
  (generic_slot_by_value_type anyYaml anyType (.mk MappingNode 0 "!!map" "" [])).2.2.2
    rfl (fun c => ⟨.omap c, rfl⟩) (by decide) (.int (New Int AnyValue)) rfl

/-! ## The reads of the loop -/

/-- With an even number of children left, the reads of the loop are an initial
segment of the remaining positions, all of them when the loop returns nil,
and a panic comes from the type assertion on some value node. -/
theorem visits_even {K V A : Type} [DecidableEq K] (doc : Yaml K V A) (vt : ValueType V A)
    (content : List Node) :
    ∀ (n index : Nat) (om : OrderedMap K V), content.length - index = 2 * n →
      visits doc vt content index <+: List.range' index (2 * n) ∧
      ((unmarshalLoop doc vt content index om).2 = .ok →
        visits doc vt content index = List.range' index (2 * n)) ∧
      ((unmarshalLoop doc vt content index om).2 = .panic →
        ∃ (j : Nat) (valueNode : Node),
          content[j]? = some valueNode ∧ valueSlot doc vt valueNode = .panic) := by
  intro n
  induction n with
  | zero =>
    intro index om hn
    have hge : ¬ index < content.length := by omega
    rw [visits, unmarshalLoop, dif_neg hge, dif_neg hge]
    simp
  | succ n ih =>
    intro index om hn
    have hlt : index < content.length := by omega
    have hlt1 : index + 1 < content.length := by omega
    have hrange : List.range' index (2 * (n + 1))
        = index :: (index + 1) :: List.range' (index + 2) (2 * n) := by
      have e : 2 * (n + 1) = 2 * n + 1 + 1 := by ring
      rw [e, List.range'_succ, List.range'_succ]
    rw [visits, unmarshalLoop, dif_pos hlt, dif_pos hlt, hrange,
      List.getElem?_eq_getElem hlt1]
    cases doc.decodeKey content[index] with
    | error err =>
      refine ⟨?_, ?_, ?_⟩
      · exact ⟨(index + 1) :: List.range' (index + 2) (2 * n), rfl⟩
      · intro h; cases h
      · intro h; cases h
    | ok key =>
      simp only
      cases hslot : valueSlot doc vt content[index + 1] with
      | error err =>
        refine ⟨?_, ?_, ?_⟩
        · exact ⟨List.range' (index + 2) (2 * n), rfl⟩
        · intro h; cases h
        · intro h; cases h
      | panic =>
        refine ⟨?_, ?_, ?_⟩
        · exact ⟨List.range' (index + 2) (2 * n), rfl⟩
        · intro h; cases h
        · intro _
          exact ⟨index + 1, content[index + 1], List.getElem?_eq_getElem hlt1, hslot⟩
      | store val =>
        simp only
        obtain ⟨h1, h2, h3⟩ := ih (index + 2) (om.Set key val) (by omega)
        refine ⟨?_, ?_, h3⟩
        · rw [List.prefix_cons_inj, List.prefix_cons_inj]
          exact h1
        · intro h
          rw [h2 h]

/-- C16 as stated fails: the mapping `[]: x`, `c: z` has four children, an
even number, and its first key does not decode into a string; the loop reads
child 0 and returns the error, so children 1, 2 and 3 are never visited. -/
theorem visits_counterexample :
    badFirstKey.Kind = MappingNode ∧ badFirstKey.Content.length % 2 = 0 ∧
      (UnmarshalYAML textYaml textType (New String String) badFirstKey).2
        = .error "cannot unmarshal into string" ∧
      visits textYaml textType badFirstKey.Content 0 = [0] ∧
      1 ∉ visits textYaml textType badFirstKey.Content 0 := by
  have hv : visits textYaml textType badFirstKey.Content 0 = [0] := by
    rw [visits]
    rfl
  refine ⟨rfl, rfl, ?_, hv, ?_⟩
  · rw [UnmarshalYAML_eq _ _ _ _ (by rfl)]; rfl
  · rw [hv]; decide

/-- C16, amended: for a mapping node with an even number of children, every
position the loop of `UnmarshalYAML` reads is within the children list, so a
panic of the call can only come from the type assertion on a value, not from
an index out of range; the loop reads the children in document order, each
at most once, and when the call returns nil it has read each child exactly
once (even positions as keys, odd positions as values). -/
theorem UnmarshalYAML_reads_in_bounds {K V A : Type} [DecidableEq K] (doc : Yaml K V A)
    (vt : ValueType V A) (om : OrderedMap K V) (value : Node)
    (hkind : value.Kind = MappingNode) (heven : value.Content.length % 2 = 0) :
    (∀ i ∈ visits doc vt value.Content 0, i < value.Content.length) ∧
      visits doc vt value.Content 0 <+: List.range value.Content.length ∧
      ((UnmarshalYAML doc vt om value).2 = .ok →
        visits doc vt value.Content 0 = List.range value.Content.length) ∧
      ((UnmarshalYAML doc vt om value).2 = .panic →
        ∃ (j : Nat) (valueNode : Node), value.Content[j]? = some valueNode ∧
          valueSlot doc vt valueNode = .panic) := by
  have hlen : value.Content.length - 0 = 2 * (value.Content.length / 2) := by omega
  obtain ⟨h1, h2, h3⟩ := visits_even doc vt value.Content _ 0 (lazyInit om) hlen
  have hrange : List.range' 0 (2 * (value.Content.length / 2))
      = List.range value.Content.length := by
    rw [List.range_eq_range']
    congr 1
    omega
  rw [hrange] at h1 h2
  have hrun : UnmarshalYAML doc vt om value
      = unmarshalLoop doc vt value.Content 0 (lazyInit om) := by
    rw [UnmarshalYAML_eq doc vt om value hkind,
      unmarshalLoop_eq_decodePairs doc vt value.Content _ 0 _ rfl]
    rfl
  rw [hrun]
  refine ⟨?_, h1, h2, h3⟩
  intro i hi
  exact List.mem_range.mp (h1.subset hi)

/-- C16 amended, on the mapping `a: x`, `b: []`, `c: z`: the call returns an
error, so it does not panic, and the four reads made are in bounds. -/
theorem UnmarshalYAML_reads_in_bounds_witness :
    visits textYaml textType badSecondValue.Content 0 <+: List.range 6 :=
  (UnmarshalYAML_reads_in_bounds textYaml textType (New String String) badSecondValue
    rfl rfl).2.1

/-! ## Duplicate keys -/

theorem firstOccurrences_append_singleton {K : Type} [DecidableEq K] (k : K) :
    ∀ l : List K, firstOccurrences (l ++ [k])
      = if k ∈ l then firstOccurrences l else firstOccurrences l ++ [k] := by
  intro l
  induction l with
  | nil => simp [firstOccurrences]
  | cons a l ih =>
    rw [List.cons_append, firstOccurrences, ih, firstOccurrences]
    by_cases hkl : k ∈ l
    · rw [if_pos hkl, if_pos (List.mem_cons_of_mem _ hkl)]
    · rw [if_neg hkl]
      by_cases hka : k = a
      · subst hka
        rw [if_pos (List.mem_cons_self _ _)]
        simp [List.filter_append]
      · rw [if_neg (by simp [hka, hkl])]
        simp [List.filter_append, hka]

theorem mem_firstOccurrences {K : Type} [DecidableEq K] (x : K) :
    ∀ l : List K, x ∈ firstOccurrences l ↔ x ∈ l := by
  intro l
  induction l with
  | nil => simp [firstOccurrences]
  | cons a l ih =>
    simp only [firstOccurrences, List.mem_cons, List.mem_filter, ih]
    by_cases hxa : x = a <;> simp [hxa]

theorem lastValue_append_singleton {K V : Type} [DecidableEq K] (ps : List (Pair K V))
    (p : Pair K V) (k : K) :
    lastValue (ps ++ [p]) k = if p.Key = k then some p.Value else lastValue ps k := by
  unfold lastValue
  rw [List.reverse_append, List.reverse_singleton, List.singleton_append, List.find?_cons]
  by_cases h : p.Key = k <;> simp [h]

theorem mem_upsert {K V : Type} [DecidableEq K] (key : K) (value : V) (x : Pair K V) :
    ∀ l : List (Pair K V), (l.map Pair.Key).Nodup → x ∈ upsert key value l →
      x = ⟨key, value⟩ ∨ (x ∈ l ∧ x.Key ≠ key) := by
  intro l
  induction l with
  | nil => intro _ h; left; simpa [upsert] using h
  | cons q l ih =>
    intro hnd h
    rw [List.map_cons, List.nodup_cons] at hnd
    by_cases hq : q.Key = key
    · rw [upsert, if_pos hq, List.mem_cons] at h
      rcases h with rfl | h
      · left; rw [hq]
      · right
        refine ⟨List.mem_cons_of_mem _ h, ?_⟩
        intro hx
        apply hnd.1
        rw [hq, ← hx]
        exact List.mem_map_of_mem _ h
    · rw [upsert, if_neg hq, List.mem_cons] at h
      rcases h with rfl | h
      · right; exact ⟨List.mem_cons_self _ _, hq⟩
      · rcases ih hnd.2 h with h1 | ⟨h1, h2⟩
        · left; exact h1
        · right; exact ⟨List.mem_cons_of_mem _ h1, h2⟩

/-- The upserts of `ps` into the empty sequence: unique keys, in the order of
their first occurrences, each with the value of its last occurrence. -/
theorem foldl_upsert_spec {K V : Type} [DecidableEq K] :
    ∀ ps : List (Pair K V),
      ((ps.foldl (fun l p => upsert p.Key p.Value l) []).map Pair.Key).Nodup ∧
      (ps.foldl (fun l p => upsert p.Key p.Value l) []).map Pair.Key
        = firstOccurrences (ps.map Pair.Key) ∧
      ∀ x ∈ ps.foldl (fun l p => upsert p.Key p.Value l) [],
        lastValue ps x.Key = some x.Value := by
  intro ps
  induction ps using List.reverseRecOn with
  | nil => simp [firstOccurrences]
  | append_singleton qs p ih =>
    obtain ⟨hnd, hkeys, hval⟩ := ih
    rw [List.foldl_append, List.foldl_cons, List.foldl_nil]
    have hnd1 : ((upsert p.Key p.Value
        (qs.foldl (fun l p => upsert p.Key p.Value l) [])).map Pair.Key).Nodup := by
      rw [map_Key_upsert]
      split
      · exact hnd
      · rename_i hmem
        rw [List.nodup_append]
        refine ⟨hnd, by simp, ?_⟩
        intro a ha hb
        simp at hb
        subst hb
        exact hmem ha
    refine ⟨hnd1, ?_, ?_⟩
    · rw [map_Key_upsert, hkeys, List.map_append, List.map_cons, List.map_nil,
        firstOccurrences_append_singleton]
      simp only [mem_firstOccurrences]
    · intro x hx
      rw [lastValue_append_singleton]
      rcases mem_upsert _ _ x _ hnd hx with rfl | ⟨h1, h2⟩
      · simp
      · rw [if_neg (fun e => h2 e.symm)]
        exact hval x h1

/-- C15: duplicate keys are upserted. When all pairs of a mapping node decode
and the target is empty, `UnmarshalYAML` returns nil and the decoded map has
one entry for each distinct decoded key; the keys are in the order of their
first occurrences in the document, and the value of each entry is that of the
last pair with its key. -/
theorem UnmarshalYAML_duplicate_keys {K V A : Type} [DecidableEq K] (doc : Yaml K V A)
    (vt : ValueType V A) (om : OrderedMap K V) (value : Node) (ps : List (Pair K V))
    (hkind : value.Kind = MappingNode) (hempty : om.entries = [])
    (hlen : value.Content.length = 2 * ps.length)
    (hdec : DecodesTo doc vt value.Content ps) :
    (UnmarshalYAML doc vt om value).2 = .ok ∧
      ((UnmarshalYAML doc vt om value).1.entries.map Pair.Key).Nodup ∧
      (UnmarshalYAML doc vt om value).1.entries.map Pair.Key
        = firstOccurrences (ps.map Pair.Key) ∧
      ∀ x ∈ (UnmarshalYAML doc vt om value).1.entries, lastValue ps x.Key = some x.Value := by
  rw [UnmarshalYAML_eq doc vt om value hkind,
    decodePairs_all doc vt ps value.Content _ hdec hlen]
  simp only
  rw [entries_setAll, lazyInit_entries, hempty]
  refine ⟨?_, foldl_upsert_spec ps⟩
  first | rfl | trivial

/-- C15, on the mapping `a: 1`, `b: 2`, `a: 3`: the decoded map is `a: 3`,
`b: 2`. -/
theorem UnmarshalYAML_duplicate_keys_witness :
    (UnmarshalYAML textYaml textType (New String String) repeatedKey).1.entries.map Pair.Key
        = ["a", "b"] ∧
      (UnmarshalYAML textYaml textType (New String String) repeatedKey).1.entries.map Pair.Value
        = ["3", "2"] :=
  ⟨(UnmarshalYAML_duplicate_keys textYaml textType (New String String) repeatedKey
      [⟨"a", "1"⟩, ⟨"b", "2"⟩, ⟨"a", "3"⟩] rfl rfl rfl
      (by
        intro j hj
        have hj3 : j < 3 := hj
        interval_cases j
        · exact ⟨textNode "a", textNode "1", ⟨"a", "1"⟩, rfl, rfl, rfl, rfl, rfl⟩
        · exact ⟨textNode "b", textNode "2", ⟨"b", "2"⟩, rfl, rfl, rfl, rfl, rfl⟩
        · exact ⟨textNode "a", textNode "3", ⟨"a", "3"⟩, rfl, rfl, rfl, rfl, rfl⟩)).2.2.1.trans
      (by decide),
    by rw [UnmarshalYAML_eq _ _ _ _ (by rfl)]; rfl⟩

/-! ## Lazy initialisation and frame -/

theorem setAll_fields {K V : Type} [DecidableEq K] :
    ∀ (ps : List (Pair K V)) (om : OrderedMap K V),
      (setAll om ps).disableHTMLEscape = om.disableHTMLEscape ∧
      (setAll om ps).capacity = om.capacity ∧
      (om.list ≠ none → (setAll om ps).list ≠ none) := by
  intro ps
  induction ps with
  | nil => intro om; exact ⟨rfl, rfl, id⟩
  | cons p ps ih =>
    intro om
    obtain ⟨h1, h2, h3⟩ := ih (om.Set p.Key p.Value)
    refine ⟨h1, h2, fun _ => h3 ?_⟩
    simp [OrderedMap.Set]

theorem getElem?_upsert_of_ne {K V : Type} [DecidableEq K] (key : K) (value : V)
    (p : Pair K V) (hp : p.Key ≠ key) :
    ∀ (l : List (Pair K V)) (i : Nat), l[i]? = some p → (upsert key value l)[i]? = some p := by
  intro l
  induction l with
  | nil => intro i h; simp at h
  | cons q l ih =>
    intro i h
    cases i with
    | zero =>
      simp at h
      subst h
      simp [upsert, hp]
    | succ i =>
      simp at h
      by_cases hq : q.Key = key
      · simp [upsert, hq, h]
      · simp [upsert, hq, ih i h]

theorem setAll_frame {K V : Type} [DecidableEq K] (p : Pair K V) (i : Nat) :
    ∀ (ps : List (Pair K V)) (om : OrderedMap K V),
      om.entries[i]? = some p → (∀ q ∈ ps, q.Key ≠ p.Key) →
      (setAll om ps).entries[i]? = some p := by
  intro ps
  induction ps with
  | nil => intro om h _; exact h
  | cons q ps ih =>
    intro om h hne
    refine ih (om.Set q.Key q.Value) ?_ (fun r hr => hne r (List.mem_cons_of_mem _ hr))
    rw [entries_Set]
    exact getElem?_upsert_of_ne q.Key q.Value p (fun e => hne q (List.mem_cons_self _ _) e.symm)
      _ i h

theorem setAll_keys {K V : Type} [DecidableEq K] :
    ∀ (ps : List (Pair K V)) (om : OrderedMap K V),
      ∃ added, (setAll om ps).entries.map Pair.Key = om.entries.map Pair.Key ++ added ∧
        ∀ k ∈ added, k ∉ om.entries.map Pair.Key ∧ k ∈ ps.map Pair.Key := by
  intro ps
  induction ps with
  | nil => intro om; exact ⟨[], by simp [setAll], by simp⟩
  | cons p ps ih =>
    intro om
    obtain ⟨added, hkeys, hadded⟩ := ih (om.Set p.Key p.Value)
    rw [entries_Set, map_Key_upsert] at hkeys hadded
    by_cases hmem : p.Key ∈ om.entries.map Pair.Key
    · rw [if_pos hmem] at hkeys hadded
      refine ⟨added, hkeys, fun k hk => ⟨(hadded k hk).1, ?_⟩⟩
      rw [List.map_cons]
      exact List.mem_cons_of_mem _ (hadded k hk).2
    · rw [if_neg hmem] at hkeys hadded
      refine ⟨p.Key :: added, ?_, ?_⟩
      · change (setAll (om.Set p.Key p.Value) ps).entries.map Pair.Key = _
        rw [hkeys]
        simp
      · intro k hk
        rcases List.mem_cons.mp hk with rfl | hk
        · exact ⟨hmem, by simp⟩
        · refine ⟨fun h => (hadded k hk).1 (List.mem_append_left _ h), ?_⟩
          rw [List.map_cons]
          exact List.mem_cons_of_mem _ (hadded k hk).2

/-- However the loop ends, the map it leaves is the one it started from after
`Set` on some pairs whose keys are decoded key nodes of the document. -/
theorem decodePairs_stored {K V A : Type} [DecidableEq K] (doc : Yaml K V A)
    (vt : ValueType V A) :
    ∀ (n : Nat) (content : List Node) (om : OrderedMap K V), content.length = n →
      ∃ ps : List (Pair K V), (decodePairs doc vt content om).1 = setAll om ps ∧
        ∀ q ∈ ps, ∃ (j : Nat) (keyNode : Node),
          content[2 * j]? = some keyNode ∧ doc.decodeKey keyNode = .ok q.Key := by
  intro n
  induction n using Nat.strong_induction_on with
  | _ n ih =>
    intro content om hlen
    rcases content with _ | ⟨k, content⟩
    · exact ⟨[], rfl, by simp⟩
    rcases content with _ | ⟨v, rest⟩
    · refine ⟨[], ?_, by simp⟩
      simp only [decodePairs]
      cases doc.decodeKey k <;> rfl
    simp only [decodePairs]
    cases hk : doc.decodeKey k with
    | error err => exact ⟨[], rfl, by simp⟩
    | ok key =>
      simp only
      cases hslot : valueSlot doc vt v with
      | error err => exact ⟨[], rfl, by simp⟩
      | panic => exact ⟨[], rfl, by simp⟩
      | store val =>
        simp only
        obtain ⟨ps, hrun, hps⟩ := ih rest.length (by simp at hlen; omega) rest
          (om.Set key val) rfl
        refine ⟨⟨key, val⟩ :: ps, ?_, ?_⟩
        · rw [hrun]; rfl
        · intro q hq
          rcases List.mem_cons.mp hq with rfl | hq
          · exact ⟨0, k, by simp, hk⟩
          · obtain ⟨j, keyNode, hj, hdk⟩ := hps q hq
            refine ⟨j + 1, keyNode, ?_, hdk⟩
            have e : 2 * (j + 1) = 2 * j + 1 + 1 := by ring
            rw [e]
            simpa using hj

/-- C18: lazy initialisation and frame. `UnmarshalYAML` of a mapping node
runs its loop on the target with its storage allocated: a target without
storage gets it with capacity zero before any insert, also when the mapping
has no children, and a target with storage is taken as it is, capacity
included; the HTML-escape setting is kept. Afterwards the keys of the map are
the keys it had before, in the same order, followed by keys the document
adds; and an entry whose key no key node of the document decodes to is still
at its position with its value. -/
theorem UnmarshalYAML_lazy_init_frame {K V A : Type} [DecidableEq K] (doc : Yaml K V A)
    (vt : ValueType V A) (om : OrderedMap K V) (value : Node)
    (hkind : value.Kind = MappingNode) :
    UnmarshalYAML doc vt om value = unmarshalLoop doc vt value.Content 0 (lazyInit om) ∧
      (om.list = none →
        lazyInit om
          = { list := some [], capacity := 0, disableHTMLEscape := om.disableHTMLEscape } ∧
        (UnmarshalYAML doc vt om value).1.list ≠ none ∧
        (UnmarshalYAML doc vt om value).1.capacity = 0 ∧
        (value.Content = [] → UnmarshalYAML doc vt om value
          = ({ list := some [], capacity := 0, disableHTMLEscape := om.disableHTMLEscape },
              .ok))) ∧
      (om.list ≠ none → lazyInit om = om ∧
        (UnmarshalYAML doc vt om value).1.list ≠ none ∧
        (UnmarshalYAML doc vt om value).1.capacity = om.capacity) ∧
      (UnmarshalYAML doc vt om value).1.disableHTMLEscape = om.disableHTMLEscape ∧
      (∃ added, (UnmarshalYAML doc vt om value).1.entries.map Pair.Key
          = om.entries.map Pair.Key ++ added ∧
        ∀ k ∈ added, k ∉ om.entries.map Pair.Key) ∧
      (∀ (i : Nat) (p : Pair K V), om.entries[i]? = some p →
        (∀ (j : Nat) (keyNode : Node), value.Content[2 * j]? = some keyNode →
          doc.decodeKey keyNode ≠ .ok p.Key) →
        (UnmarshalYAML doc vt om value).1.entries[i]? = some p) := by
  have hrun : UnmarshalYAML doc vt om value
      = unmarshalLoop doc vt value.Content 0 (lazyInit om) := by
    rw [UnmarshalYAML_eq doc vt om value hkind,
      unmarshalLoop_eq_decodePairs doc vt value.Content _ 0 _ rfl]
    rfl
  obtain ⟨ps, hps, hkeys⟩ := decodePairs_stored doc vt _ value.Content (lazyInit om) rfl
  have hres : (UnmarshalYAML doc vt om value).1 = setAll (lazyInit om) ps := by
    rw [UnmarshalYAML_eq doc vt om value hkind, hps]
  obtain ⟨hesc, hcap, hlist⟩ := setAll_fields ps (lazyInit om)
  refine ⟨hrun, ?_, ?_, ?_, ?_, ?_⟩
  · intro hnone
    have hinit : lazyInit om
        = { list := some [], capacity := 0, disableHTMLEscape := om.disableHTMLEscape } := by
      simp [lazyInit, hnone, OrderedMap.initialise]
    refine ⟨hinit, ?_, ?_, ?_⟩
    · rw [hres]; exact hlist (by rw [hinit]; simp)
    · rw [hres, hcap, hinit]
    · intro hcontent
      rw [UnmarshalYAML_eq doc vt om value hkind, hcontent, hinit]
      rfl
  · intro hsome
    have hinit : lazyInit om = om := by
      cases hl : om.list with
      | none => exact absurd hl hsome
      | some l => simp [lazyInit, hl]
    refine ⟨hinit, ?_, ?_⟩
    · rw [hres]; exact hlist (by rw [hinit]; exact hsome)
    · rw [hres, hcap, hinit]
  · rw [hres, hesc]
    unfold lazyInit
    split <;> rfl
  · obtain ⟨added, h1, h2⟩ := setAll_keys ps (lazyInit om)
    rw [lazyInit_entries] at h1 h2
    exact ⟨added, by rw [hres]; exact h1, fun k hk => (h2 k hk).1⟩
  · intro i p hp hfresh
    rw [hres]
    refine setAll_frame p i ps (lazyInit om) (by rw [lazyInit_entries]; exact hp) ?_
    intro q hq hqp
    obtain ⟨j, keyNode, hj, hdk⟩ := hkeys q hq
    exact hfresh j keyNode hj (by rw [hdk, hqp])

/-- C18, on the mapping `k: null` decoded into a map of `any` without
storage: the storage is allocated with capacity zero and holds the pair. -/
theorem UnmarshalYAML_lazy_init_frame_witness :
    (UnmarshalYAML anyYaml anyType (noStorage String AnyValue) nullValueDoc).1.list ≠ none ∧
      (UnmarshalYAML anyYaml anyType (noStorage String AnyValue) nullValueDoc).1.capacity = 0 :=
  ⟨((UnmarshalYAML_lazy_init_frame anyYaml anyType (noStorage String AnyValue) nullValueDoc
      rfl).2.1 rfl).2.1,
    ((UnmarshalYAML_lazy_init_frame anyYaml anyType (noStorage String AnyValue) nullValueDoc
      rfl).2.1 rfl).2.2.1⟩

/-! ## Nested maps -/

theorem valueSlot_candidateYaml {K T A : Type} (inner : Yaml K A A) (kc : KeyCodec T)
    (va : ValueType A A) (valueNode : Node) :
    valueSlot (candidateYaml inner kc) va valueNode = valueSlot inner va valueNode := rfl

/-- When every candidate map can be asserted to the value type, the value of
a pair is never a panic. -/
theorem valueSlot_no_panic {K V A : Type} (doc : Yaml K V A) (vt : ValueType V A)
    (hassert : ∀ c, ∃ val, vt.assert c = some val) (valueNode : Node) :
    valueSlot doc vt valueNode ≠ .panic := by
  have hdirect : decodeDirect doc valueNode ≠ .panic := by
    unfold decodeDirect
    cases doc.decodeValue valueNode <;> simp
  unfold valueSlot
  split
  · split
    · simp
    · rcases tryDecodeToOrderedMap_cases (doc.decodeCandidate valueNode) with ⟨c, hc⟩ | hc
      · obtain ⟨val, hval⟩ := hassert c
        simp [hc, hval]
      · simpa [hc] using hdirect
  · exact hdirect

/-- With an even number of children and a value type to which every
candidate map can be asserted, `UnmarshalYAML` does not panic. -/
theorem UnmarshalYAML_no_panic {K V A : Type} [DecidableEq K] (doc : Yaml K V A)
    (vt : ValueType V A) (hassert : ∀ c, ∃ val, vt.assert c = some val)
    (om : OrderedMap K V) (value : Node) (heven : value.Content.length % 2 = 0) :
    (UnmarshalYAML doc vt om value).2 ≠ .panic := by
  by_cases hkind : value.Kind = MappingNode
  · intro hp
    have hrun : UnmarshalYAML doc vt om value
        = unmarshalLoop doc vt value.Content 0 (lazyInit om) := by
      rw [UnmarshalYAML_eq doc vt om value hkind,
        unmarshalLoop_eq_decodePairs doc vt value.Content _ 0 _ rfl]
      rfl
    rw [hrun] at hp
    have hlen : value.Content.length - 0 = 2 * (value.Content.length / 2) := by omega
    obtain ⟨j, valueNode, _, hslot⟩ :=
      (visits_even doc vt value.Content _ 0 (lazyInit om) hlen).2.2 hp
    exact valueSlot_no_panic doc vt hassert valueNode hslot
  · unfold UnmarshalYAML
    rw [if_pos hkind]
    simp

/-- Two document layers that treat value nodes alike: when the loop returns
nil under one and an error under the other, that error is the error of a key
node under the other. -/
theorem decodePairs_key_failure {K1 K2 V A : Type} [DecidableEq K1] [DecidableEq K2]
    (doc1 : Yaml K1 V A) (doc2 : Yaml K2 V A) (vt : ValueType V A)
    (hslot : ∀ valueNode, valueSlot doc1 vt valueNode = valueSlot doc2 vt valueNode)
    (err : Error) :
    ∀ (n : Nat) (content : List Node) (om1 : OrderedMap K1 V) (om2 : OrderedMap K2 V),
      content.length = n →
      (decodePairs doc2 vt content om2).2 = .ok →
      (decodePairs doc1 vt content om1).2 = .error err →
      ∃ (j : Nat) (keyNode : Node),
        content[2 * j]? = some keyNode ∧ doc1.decodeKey keyNode = .error err := by
  intro n
  induction n using Nat.strong_induction_on with
  | _ n ih =>
    intro content om1 om2 hlen h2 h1
    rcases content with _ | ⟨k, content⟩
    · simp [decodePairs] at h1
    rcases content with _ | ⟨v, rest⟩
    · simp only [decodePairs] at h2
      cases hk2 : doc2.decodeKey k <;> rw [hk2] at h2 <;> cases h2
    simp only [decodePairs] at h1 h2
    cases hk1 : doc1.decodeKey k with
    | error e1 =>
      rw [hk1] at h1
      simp only at h1
      cases h1
      exact ⟨0, k, by simp, hk1⟩
    | ok key1 =>
      rw [hk1] at h1
      simp only at h1
      cases hk2 : doc2.decodeKey k with
      | error e2 => rw [hk2] at h2; cases h2
      | ok key2 =>
        rw [hk2] at h2
        simp only at h2
        rw [hslot v] at h1
        cases hv : valueSlot doc2 vt v with
        | error e => rw [hv] at h2; cases h2
        | panic => rw [hv] at h2; cases h2
        | store val =>
          rw [hv] at h1 h2
          simp only at h1 h2
          obtain ⟨j, keyNode, hj, hdk⟩ := ih rest.length (by simp at hlen; omega) rest
            _ _ rfl h2 h1
          refine ⟨j + 1, keyNode, ?_, hdk⟩
          have e : 2 * (j + 1) = 2 * j + 1 + 1 := by ring
          rw [e]
          simpa using hj

theorem candidateUnmarshal_keyType {K A : Type} (kcs : KeyCodecs) (inner : Yaml K A A)
    (va : ValueType A A) (n : Node) (c : Candidate A) :
    (candidateUnmarshal kcs inner va n c).1.keyType = c.keyType := by
  cases c <;> rfl

theorem candidateUnmarshal_no_panic {K A : Type} (kcs : KeyCodecs) (inner : Yaml K A A)
    (va : ValueType A A) (hassert : ∀ c, ∃ val, va.assert c = some val) (n : Node)
    (heven : n.Content.length % 2 = 0) (c : Candidate A) :
    (candidateUnmarshal kcs inner va n c).2 ≠ .panic := by
  cases c <;> exact UnmarshalYAML_no_panic _ va hassert _ n heven

/-- What `n.Decode(candidate)` returns tells how the candidate's
`UnmarshalYAML` ended. -/
theorem decodeCandidate_of_dispatch {K K1 A : Type} (kcs : KeyCodecs) (doc : Yaml K A A)
    (inner : Yaml K1 A A) (va : ValueType A A) (n : Node)
    (hassert : ∀ c, ∃ val, va.assert c = some val) (heven : n.Content.length % 2 = 0)
    (hdisp : Dispatches kcs doc inner va n) (c : Candidate A) :
    ((doc.decodeCandidate n c).2 = none →
        (candidateUnmarshal kcs inner va n c).2 = .ok ∧
        doc.decodeCandidate n c = ((candidateUnmarshal kcs inner va n c).1, none)) ∧
      (∀ err, (doc.decodeCandidate n c).2 = some err →
        (candidateUnmarshal kcs inner va n c).2 = .error err) := by
  obtain ⟨hok, herr⟩ := hdisp c
  have hnp := candidateUnmarshal_no_panic kcs inner va hassert n heven c
  cases hout : (candidateUnmarshal kcs inner va n c).2 with
  | ok =>
    have h := hok hout
    refine ⟨fun _ => ⟨rfl, h⟩, ?_⟩
    intro err he
    rw [h] at he
    cases he
  | error e =>
    have h := herr e hout
    refine ⟨?_, ?_⟩
    · intro hn
      rw [h] at hn
      cases hn
    · intro err he
      rw [h] at he
      simp only [Option.some.injEq] at he
      rw [he]
  | panic => exact absurd hout hnp

theorem tryLoop_skip {A : Type} (decoderFunc : Candidate A → Candidate A × Option Error)
    (f : Unit → Candidate A) (rest : List (Unit → Candidate A)) (kt : KeyType)
    (c : Candidate A) (hc : c.keyType = kt)
    (hkeep : (decoderFunc (f ())).2 = none → (decoderFunc (f ())).1.keyType ≠ kt)
    (h : tryLoop decoderFunc (f :: rest) = (some c, none)) :
    (∃ err, (decoderFunc (f ())).2 = some err) ∧ tryLoop decoderFunc rest = (some c, none) := by
  rcases hd : decoderFunc (f ()) with ⟨c1, e⟩
  rw [hd] at hkeep
  cases e with
  | none =>
    simp only [tryLoop, hd] at h
    have hc1 : c1 = c := by
      have := congrArg Prod.fst h
      simpa using this
    exact absurd (by rw [hc1]; exact hc) (hkeep rfl)
  | some err =>
    simp only [tryLoop, hd] at h
    exact ⟨⟨err, rfl⟩, h⟩

theorem decodePairs_key_error {K V A : Type} [DecidableEq K] (doc : Yaml K V A)
    (vt : ValueType V A) (keyNode : Node) (tail : List Node) (om : OrderedMap K V)
    (err : Error) (hk : doc.decodeKey keyNode = .error err) :
    decodePairs doc vt (keyNode :: tail) om = (om, .error err) := by
  cases tail with
  | nil => simp [decodePairs, hk]
  | cons v rest => simp [decodePairs, hk]

/-- The trial of a candidate whose key type the first key node does not
decode into returns that key's error. -/
theorem trial_key_error {K T A : Type} [DecidableEq T] (inner : Yaml K A A) (kc : KeyCodec T)
    (va : ValueType A A) (n : Node) (m : OrderedMap T A) (keyNode : Node) (err : Error)
    (hkind : n.Kind = MappingNode) (hk : n.Content[0]? = some keyNode)
    (he : kc.Decode keyNode = .error err) :
    (UnmarshalYAML (candidateYaml inner kc) va m n).2 = .error err := by
  rw [UnmarshalYAML_eq _ va m n hkind]
  cases hc : n.Content with
  | nil => rw [hc] at hk; simp at hk
  | cons k tail =>
    rw [hc] at hk
    simp at hk
    subst hk
    rw [decodePairs_key_error _ va k tail _ err he]

/-- When the string trial returns nil and the trial of another candidate
returns an error, that error is the error of a key node. -/
theorem key_failure_of_trials {K T A : Type} [DecidableEq T] (inner : Yaml K A A)
    (kc : KeyCodec T) (kcString : KeyCodec String) (va : ValueType A A) (n : Node)
    (m : OrderedMap T A) (mString : OrderedMap String A) (err : Error)
    (hkind : n.Kind = MappingNode)
    (hS : (UnmarshalYAML (candidateYaml inner kcString) va mString n).2 = .ok)
    (hT : (UnmarshalYAML (candidateYaml inner kc) va m n).2 = .error err) :
    ∃ (j : Nat) (keyNode : Node),
      n.Content[2 * j]? = some keyNode ∧ kc.Decode keyNode = .error err := by
  rw [UnmarshalYAML_eq _ va _ n hkind] at hS hT
  exact decodePairs_key_failure (candidateYaml inner kc) (candidateYaml inner kcString) va
    (fun _ => rfl) err _ n.Content _ _ rfl hS hT

/-- When all key nodes of a mapping decode into `int` and the values decode,
the first trial succeeds and the resolver returns the `int`-keyed map of the
pairs. -/
theorem resolver_int_keyed {K K1 A : Type} (kcs : KeyCodecs) (doc : Yaml K A A)
    (inner : Yaml K1 A A) (va : ValueType A A) (n : Node)
    (hkind : n.Kind = MappingNode) (hdisp : Dispatches kcs doc inner va n)
    (ps : List (Pair Int A))
    (hps : DecodesTo (candidateYaml inner kcs.int) va n.Content ps)
    (hlen : n.Content.length = 2 * ps.length) :
    tryDecodeToOrderedMap (doc.decodeCandidate n)
      = (some (.int (setAll (New Int A) ps)), none) := by
  have hrun : UnmarshalYAML (candidateYaml inner kcs.int) va (New Int A) n
      = (setAll (New Int A) ps, .ok) := by
    rw [UnmarshalYAML_eq _ va _ n hkind, decodePairs_all _ va ps n.Content _ hps hlen]
    rfl
  have hd : doc.decodeCandidate n (.int (New Int A))
      = (.int (setAll (New Int A) ps), none) := by
    have h := (hdisp (.int (New Int A))).1 (by simp [candidateUnmarshal, hrun])
    rw [h]
    simp [candidateUnmarshal, hrun]
  simp [tryDecodeToOrderedMap, possibilities, tryLoop, hd]

/-- C13: key-type disambiguation, for a mapping node with an even number of
children that the library decodes into a candidate map by calling the
candidate's `UnmarshalYAML`, the values of the nested map having the type
`any`. The resolver returns a string-keyed map only if, for each of the six
integer key types, the trial of that type failed with the error of a key node
that does not decode into it. When all key nodes decode into `int` and the
values decode, the resolver returns the `int`-keyed map of the pairs; when
the first key node decodes into none of the integer types and all key nodes
decode into `string`, it returns the string-keyed map of the pairs. -/
theorem resolver_key_type {K K1 A : Type} (kcs : KeyCodecs) (doc : Yaml K A A)
    (inner : Yaml K1 A A) (va : ValueType A A) (n : Node)
    (hassert : ∀ c, ∃ val, va.assert c = some val)
    (hkind : n.Kind = MappingNode) (heven : n.Content.length % 2 = 0)
    (hdisp : Dispatches kcs doc inner va n) :
    (∀ m, tryDecodeToOrderedMap (doc.decodeCandidate n) = (some (.string m), none) →
        ∀ kt, kt ≠ .string → ∃ (j : Nat) (keyNode : Node) (err : Error),
          n.Content[2 * j]? = some keyNode ∧ kcs.decodeError kt keyNode = some err ∧
          (doc.decodeCandidate n (freshCandidate A kt)).2 = some err) ∧
      (∀ ps : List (Pair Int A),
        DecodesTo (candidateYaml inner kcs.int) va n.Content ps →
        n.Content.length = 2 * ps.length →
        tryDecodeToOrderedMap (doc.decodeCandidate n)
          = (some (.int (setAll (New Int A) ps)), none)) ∧
      (∀ (ps : List (Pair String A)) (keyNode : Node),
        DecodesTo (candidateYaml inner kcs.string) va n.Content ps →
        n.Content.length = 2 * ps.length →
        n.Content[0]? = some keyNode →
        (∀ kt, kt ≠ .string → kcs.decodeError kt keyNode ≠ none) →
        tryDecodeToOrderedMap (doc.decodeCandidate n)
          = (some (.string (setAll (New String A) ps)), none)) := by
  have hdec := decodeCandidate_of_dispatch kcs doc inner va n hassert heven hdisp
  refine ⟨?_, ?_, ?_⟩
  · intro m hres
    have hkeep : ∀ c : Candidate A, c.keyType ≠ .string →
        (doc.decodeCandidate n c).2 = none →
        (doc.decodeCandidate n c).1.keyType ≠ .string := by
      intro c hc hnone
      rw [((hdec c).1 hnone).2]
      simp only
      rw [candidateUnmarshal_keyType]
      exact hc
    unfold tryDecodeToOrderedMap possibilities at hres
    obtain ⟨⟨e1, h1⟩, hres⟩ := tryLoop_skip _ _ _ .string (.string m) rfl
      (hkeep (.int (New Int A)) (by simp [Candidate.keyType])) hres
    obtain ⟨⟨e2, h2⟩, hres⟩ := tryLoop_skip _ _ _ .string (.string m) rfl
      (hkeep (.int32 (New Int A)) (by simp [Candidate.keyType])) hres
    obtain ⟨⟨e3, h3⟩, hres⟩ := tryLoop_skip _ _ _ .string (.string m) rfl
      (hkeep (.int64 (New Int A)) (by simp [Candidate.keyType])) hres
    obtain ⟨⟨e4, h4⟩, hres⟩ := tryLoop_skip _ _ _ .string (.string m) rfl
      (hkeep (.uint (New Nat A)) (by simp [Candidate.keyType])) hres
    obtain ⟨⟨e5, h5⟩, hres⟩ := tryLoop_skip _ _ _ .string (.string m) rfl
      (hkeep (.uint32 (New Nat A)) (by simp [Candidate.keyType])) hres
    obtain ⟨⟨e6, h6⟩, hres⟩ := tryLoop_skip _ _ _ .string (.string m) rfl
      (hkeep (.uint64 (New Nat A)) (by simp [Candidate.keyType])) hres
    have h7 : (doc.decodeCandidate n (.string (New String A))).2 = none := by
      rcases hd : doc.decodeCandidate n (.string (New String A)) with ⟨c, e⟩
      cases e with
      | none => rfl
      | some err => simp [tryLoop, hd] at hres
    have hS : (UnmarshalYAML (candidateYaml inner kcs.string) va (New String A) n).2 = .ok :=
      ((hdec (.string (New String A))).1 h7).1
    intro kt hkt
    cases kt with
    | int =>
      obtain ⟨j, keyNode, hj, hk⟩ := key_failure_of_trials inner kcs.int kcs.string va n
        (New Int A) (New String A) e1 hkind hS ((hdec _).2 e1 h1)
      exact ⟨j, keyNode, e1, hj, by simp [KeyCodecs.decodeError, hk], h1⟩
    | int32 =>
      obtain ⟨j, keyNode, hj, hk⟩ := key_failure_of_trials inner kcs.int32 kcs.string va n
        (New Int A) (New String A) e2 hkind hS ((hdec _).2 e2 h2)
      exact ⟨j, keyNode, e2, hj, by simp [KeyCodecs.decodeError, hk], h2⟩
    | int64 =>
      obtain ⟨j, keyNode, hj, hk⟩ := key_failure_of_trials inner kcs.int64 kcs.string va n
        (New Int A) (New String A) e3 hkind hS ((hdec _).2 e3 h3)
      exact ⟨j, keyNode, e3, hj, by simp [KeyCodecs.decodeError, hk], h3⟩
    | uint =>
      obtain ⟨j, keyNode, hj, hk⟩ := key_failure_of_trials inner kcs.uint kcs.string va n
        (New Nat A) (New String A) e4 hkind hS ((hdec _).2 e4 h4)
      exact ⟨j, keyNode, e4, hj, by simp [KeyCodecs.decodeError, hk], h4⟩
    | uint32 =>
      obtain ⟨j, keyNode, hj, hk⟩ := key_failure_of_trials inner kcs.uint32 kcs.string va n
        (New Nat A) (New String A) e5 hkind hS ((hdec _).2 e5 h5)
      exact ⟨j, keyNode, e5, hj, by simp [KeyCodecs.decodeError, hk], h5⟩
    | uint64 =>
      obtain ⟨j, keyNode, hj, hk⟩ := key_failure_of_trials inner kcs.uint64 kcs.string va n
        (New Nat A) (New String A) e6 hkind hS ((hdec _).2 e6 h6)
      exact ⟨j, keyNode, e6, hj, by simp [KeyCodecs.decodeError, hk], h6⟩
    | string => exact absurd rfl hkt
  · intro ps hps hlen
    exact resolver_int_keyed kcs doc inner va n hkind hdisp ps hps hlen
  · intro ps keyNode hps hlen hk hfail
    have hfails : ∀ kt, kt ≠ .string →
        ∃ err, (doc.decodeCandidate n (freshCandidate A kt)).2 = some err := by
      intro kt hkt
      have hne := hfail kt hkt
      cases kt with
      | int =>
        cases he : kcs.int.Decode keyNode with
        | ok v => simp [KeyCodecs.decodeError, he] at hne
        | error err =>
          have h := (hdisp (.int (New Int A))).2 err
            (trial_key_error inner kcs.int va n _ keyNode err hkind hk he)
          exact ⟨err, by rw [freshCandidate, h]⟩
      | int32 =>
        cases he : kcs.int32.Decode keyNode with
        | ok v => simp [KeyCodecs.decodeError, he] at hne
        | error err =>
          have h := (hdisp (.int32 (New Int A))).2 err
            (trial_key_error inner kcs.int32 va n _ keyNode err hkind hk he)
          exact ⟨err, by rw [freshCandidate, h]⟩
      | int64 =>
        cases he : kcs.int64.Decode keyNode with
        | ok v => simp [KeyCodecs.decodeError, he] at hne
        | error err =>
          have h := (hdisp (.int64 (New Int A))).2 err
            (trial_key_error inner kcs.int64 va n _ keyNode err hkind hk he)
          exact ⟨err, by rw [freshCandidate, h]⟩
      | uint =>
        cases he : kcs.uint.Decode keyNode with
        | ok v => simp [KeyCodecs.decodeError, he] at hne
        | error err =>
          have h := (hdisp (.uint (New Nat A))).2 err
            (trial_key_error inner kcs.uint va n _ keyNode err hkind hk he)
          exact ⟨err, by rw [freshCandidate, h]⟩
      | uint32 =>
        cases he : kcs.uint32.Decode keyNode with
        | ok v => simp [KeyCodecs.decodeError, he] at hne
        | error err =>
          have h := (hdisp (.uint32 (New Nat A))).2 err
            (trial_key_error inner kcs.uint32 va n _ keyNode err hkind hk he)
          exact ⟨err, by rw [freshCandidate, h]⟩
      | uint64 =>
        cases he : kcs.uint64.Decode keyNode with
        | ok v => simp [KeyCodecs.decodeError, he] at hne
        | error err =>
          have h := (hdisp (.uint64 (New Nat A))).2 err
            (trial_key_error inner kcs.uint64 va n _ keyNode err hkind hk he)
          exact ⟨err, by rw [freshCandidate, h]⟩
      | string => exact absurd rfl hkt
    obtain ⟨e1, h1⟩ := hfails .int (by decide)
    obtain ⟨e2, h2⟩ := hfails .int32 (by decide)
    obtain ⟨e3, h3⟩ := hfails .int64 (by decide)
    obtain ⟨e4, h4⟩ := hfails .uint (by decide)
    obtain ⟨e5, h5⟩ := hfails .uint32 (by decide)
    obtain ⟨e6, h6⟩ := hfails .uint64 (by decide)
    have hrun : UnmarshalYAML (candidateYaml inner kcs.string) va (New String A) n
        = (setAll (New String A) ps, .ok) := by
      rw [UnmarshalYAML_eq _ va _ n hkind, decodePairs_all _ va ps n.Content _ hps hlen]
      rfl
    have h7 : doc.decodeCandidate n (.string (New String A))
        = (.string (setAll (New String A) ps), none) := by
      have h := (hdisp (.string (New String A))).1 (by simp [candidateUnmarshal, hrun])
      rw [h]
      simp [candidateUnmarshal, hrun]
    simp only [freshCandidate] at h1 h2 h3 h4 h5 h6
    have step : ∀ (f : Unit → Candidate A) (rest : List (Unit → Candidate A)) (err : Error),
        (doc.decodeCandidate n (f ())).2 = some err →
        tryLoop (doc.decodeCandidate n) (f :: rest) = tryLoop (doc.decodeCandidate n) rest := by
      intro f rest err h
      rcases hd : doc.decodeCandidate n (f ()) with ⟨c, e⟩
      rw [hd] at h
      simp only at h
      subst h
      simp [tryLoop, hd]
    unfold tryDecodeToOrderedMap possibilities
    rw [step _ _ e1 h1, step _ _ e2 h2, step _ _ e3 h3, step _ _ e4 h4, step _ _ e5 h5,
      step _ _ e6 h6]
    simp [tryLoop, h7]

/-! ## The model of the library -/

/-- The model decodes a node that is not tagged null into a candidate map by
the candidate's `UnmarshalYAML`, one level further down. -/
theorem modelYaml_dispatches (depth : Nat) (n : Node) (htag : n.Tag ≠ "!!null") :
    Dispatches modelKeys (modelYaml (depth + 1)) (modelYaml depth) anyType n := by
  intro c
  constructor
  · intro hok
    rcases hr : candidateUnmarshal modelKeys (modelYaml depth) anyType n c with ⟨c1, out⟩
    rw [hr] at hok
    simp only at hok
    subst hok
    simp [modelYaml, htag, hr]
  · intro err herr
    rcases hr : candidateUnmarshal modelKeys (modelYaml depth) anyType n c with ⟨c1, out⟩
    rw [hr] at herr
    simp only at herr
    subst herr
    simp [modelYaml, htag, hr]

/-- C13, in the model of the library: the mapping `1: a`, `2: b` with bare
keys resolves to an `int`-keyed map, the mapping `"1": a`, `"2": b` with
quoted keys to a string-keyed map. -/
theorem resolver_key_type_witness :
    tryDecodeToOrderedMap ((modelYaml 2).decodeCandidate bareKeys)
        = (some (.int (setAll (New Int AnyValue) [⟨1, .text "a"⟩, ⟨2, .text "b"⟩])), none) ∧
      tryDecodeToOrderedMap ((modelYaml 2).decodeCandidate quotedKeys)
        = (some (.string (setAll (New String AnyValue) [⟨"1", .text "a"⟩, ⟨"2", .text "b"⟩])),
            none) :=
  ⟨(resolver_key_type modelKeys (modelYaml 2) (modelYaml 1) anyType bareKeys
      (fun c => ⟨.omap c, rfl⟩) rfl rfl (modelYaml_dispatches 1 bareKeys (by decide))).2.1
      [⟨1, .text "a"⟩, ⟨2, .text "b"⟩]
      (by
        intro j hj
        have hj2 : j < 2 := hj
        interval_cases j
        · exact ⟨intNode "1", textNode "a", ⟨1, .text "a"⟩, rfl, rfl, rfl, rfl, rfl⟩
        · exact ⟨intNode "2", textNode "b", ⟨2, .text "b"⟩, rfl, rfl, rfl, rfl, rfl⟩)
      rfl,
    (resolver_key_type modelKeys (modelYaml 2) (modelYaml 1) anyType quotedKeys
      (fun c => ⟨.omap c, rfl⟩) rfl rfl (modelYaml_dispatches 1 quotedKeys (by decide))).2.2
      [⟨"1", .text "a"⟩, ⟨"2", .text "b"⟩] (quotedNode "1")
      (by
        intro j hj
        have hj2 : j < 2 := hj
        interval_cases j
        · exact ⟨quotedNode "1", textNode "a", ⟨"1", .text "a"⟩, rfl, rfl, rfl, rfl, rfl⟩
        · exact ⟨quotedNode "2", textNode "b", ⟨"2", .text "b"⟩, rfl, rfl, rfl, rfl, rfl⟩)
      rfl rfl
      (by
        intro kt hkt
        cases kt <;> first | exact absurd rfl hkt | (intro h; cases h))⟩

/-! ## Nested round trip -/

/-- In the model, the mapping `1: a`, `2: b` as a value node resolves to the
`int`-keyed map and is stored as a pointer to it. -/
theorem valueSlot_bareKeys :
    valueSlot (modelYaml 3) anyType bareKeys = .store (.omap (.int nestedEntries)) :=
  valueSlot_resolved (modelYaml 3) anyType bareKeys (.int nestedEntries)
    (.omap (.int nestedEntries)) rfl (by decide)
    (resolver_int_keyed modelKeys (modelYaml 3) (modelYaml 2) anyType bareKeys rfl
      (modelYaml_dispatches 2 bareKeys (by decide)) [⟨1, .text "a"⟩, ⟨2, .text "b"⟩]
      (by
        intro j hj
        have hj2 : j < 2 := hj
        interval_cases j
        · exact ⟨intNode "1", textNode "a", ⟨1, .text "a"⟩, rfl, rfl, rfl, rfl, rfl⟩
        · exact ⟨intNode "2", textNode "b", ⟨2, .text "b"⟩, rfl, rfl, rfl, rfl, rfl⟩)
      rfl)
    rfl

/-- In the model, the mapping `1: "null"` as a value node resolves to the
`int`-keyed map `1: nil`: the payload of the quoted string is the null
token. -/
theorem valueSlot_nullString :
    valueSlot (modelYaml 3) anyType (.mk MappingNode 0 "!!map" "" [intNode "1", quotedNode "null"])
      = .store (.omap (.int nestedNil)) :=
  valueSlot_resolved (modelYaml 3) anyType _ (.int nestedNil) (.omap (.int nestedNil)) rfl
    (by decide)
    (resolver_int_keyed modelKeys (modelYaml 3) (modelYaml 2) anyType
      (.mk MappingNode 0 "!!map" "" [intNode "1", quotedNode "null"]) rfl
      (modelYaml_dispatches 2 _ (by decide)) [⟨1, .nil⟩]
      (by
        intro j hj
        have hj1 : j < 1 := hj
        interval_cases j
        exact ⟨intNode "1", quotedNode "null", ⟨1, .nil⟩, rfl, rfl, rfl, rfl, rfl⟩)
      rfl)
    rfl

/-- C14 as stated fails for a nested map whose key type is `int32`: the map
`m: {1: a, 2: b}` holding an `int32`-keyed map is encoded to the node
`nestedDoc`, and decoding that node into a fresh map stores for `m` an
`int`-keyed map, since the `int` candidate is tried first and accepts the
keys. It also fails, for the key type `int`, on a value that is the string
`null`: its node, the quoted scalar `"null"`, decodes back to the string, yet
decoding the mapping `m: {1: "null"}` stores the nested map `1: nil`. -/
theorem nested_round_trip_counterexample :
    MarshalYAML (modelYaml 3) (some holdsInt32) = (.node nestedDoc, none) ∧
      UnmarshalYAML (modelYaml 3) anyType (New String AnyValue) nestedDoc
        = ((New String AnyValue).Set "m" (.omap (.int nestedEntries)), .ok) ∧
      (Candidate.int32 nestedEntries).keyType = .int32 ∧
      (Candidate.int nestedEntries).keyType = .int ∧
      (UnmarshalYAML (modelYaml 3) anyType (New String AnyValue) nestedDoc).1.entries.map
          Pair.Value
        ≠ holdsInt32.entries.map Pair.Value ∧
      (modelYaml 3).decodeValue (quotedNode "null") = .ok (.text "null") ∧
      UnmarshalYAML (modelYaml 3) anyType (New String AnyValue) nullStringDoc
        = ((New String AnyValue).Set "m" (.omap (.int nestedNil)), .ok) := by
  have hrun : UnmarshalYAML (modelYaml 3) anyType (New String AnyValue) nestedDoc
      = ((New String AnyValue).Set "m" (.omap (.int nestedEntries)), .ok) := by
    rw [UnmarshalYAML_eq _ _ _ _ (by rfl)]
    have hc : nestedDoc.Content = [textNode "m", bareKeys] := rfl
    rw [hc]
    simp only [decodePairs, valueSlot_bareKeys]
    rfl
  have hrun2 : UnmarshalYAML (modelYaml 3) anyType (New String AnyValue) nullStringDoc
      = ((New String AnyValue).Set "m" (.omap (.int nestedNil)), .ok) := by
    rw [UnmarshalYAML_eq _ _ _ _ (by rfl)]
    have hc : nullStringDoc.Content
        = [textNode "m", .mk MappingNode 0 "!!map" "" [intNode "1", quotedNode "null"]] := rfl
    rw [hc]
    simp only [decodePairs, valueSlot_nullString]
    rfl
  refine ⟨rfl, hrun, rfl, rfl, ?_, rfl, hrun2⟩
  rw [hrun]
  intro h
  simp [OrderedMap.Set, OrderedMap.entries, upsert, New, holdsInt32] at h

/-- Nested round trip, from what lines 65-86 make of the value nodes: when
the node of every value of `M` other than `nested`, and of every value of
`N`, is stored back as that value, decoding the encoding of `M` gives the
entries of `M`, the value for `key` being the `int`-keyed map with the
entries of `N`. -/
theorem nested_round_trip_of_slots {K K1 A : Type} [DecidableEq K] (kcs : KeyCodecs)
    (doc : Yaml K A A) (inner : Yaml K1 A A) (va : ValueType A A)
    (M target : OrderedMap K A) (N : OrderedMap Int A) (key : K) (nested : A)
    (hV : va.isInterface = true)
    (hassert : ∀ c, ∃ val, va.assert c = some val)
    (hM : M.KeysUnique) (hN : N.KeysUnique) (hempty : target.entries = [])
    (hmem : (⟨key, nested⟩ : Pair K A) ∈ M.entries)
    (hkeys : ∀ p ∈ M.entries,
      ∃ kn, doc.encodeKey p.Key = .ok kn ∧ doc.decodeKey kn = .ok p.Key)
    (hvals : ∀ p ∈ M.entries, p.Key ≠ key →
      ∃ vn, doc.encodeValue p.Value = .ok vn ∧ valueSlot doc va vn = .store p.Value)
    (hNkeys : ∀ q ∈ N.entries,
      ∃ kn, kcs.int.Encode q.Key = .ok kn ∧ kcs.int.Decode kn = .ok q.Key)
    (hNvals : ∀ q ∈ N.entries,
      ∃ vn, inner.encodeValue q.Value = .ok vn ∧ valueSlot inner va vn = .store q.Value)
    (henc : ∀ node, candidateMarshal kcs inner (.int N) = (.node node, none) →
      ∃ vnode, doc.encodeValue nested = .ok vnode ∧ vnode.Kind = MappingNode ∧
        vnode.Value ≠ "null" ∧ vnode.Content = node.Content ∧
        Dispatches kcs doc inner va vnode) :
    ∃ node val, MarshalYAML doc (some M) = (.node node, none) ∧
      (UnmarshalYAML doc va target node).2 = .ok ∧
      va.assert (.int (setAll (New Int A) N.entries)) = some val ∧
      (setAll (New Int A) N.entries).entries = N.entries ∧
      (UnmarshalYAML doc va target node).1.entries
        = M.entries.map (fun p => if p.Key = key then ⟨key, val⟩ else p) := by
  -- the nested map is encoded by its MarshalYAML
  obtain ⟨nodesN, hrunN, hlenN, hidxN⟩ :=
    marshalLoop_ok (candidateYaml inner kcs.int) N.entries (.mk MappingNode 0 "" "" [])
      (fun q hq => (hNkeys q hq).imp fun _ h => h.1)
      (fun q hq => (hNvals q hq).imp fun _ h => h.1)
  obtain ⟨vnode, hev, hvk, hvnull, hvc, hvd⟩ := henc _ hrunN
  have hvc1 : vnode.Content = nodesN := by
    rw [hvc]
    simp [Node.appendContent, Node.Content]
  have hdecN : DecodesTo (candidateYaml inner kcs.int) va vnode.Content N.entries := by
    rw [hvc1]
    intro j hj
    obtain ⟨q, kn, vn, hq, h0, h1, hek, hevq⟩ := hidxN j hj
    have hqmem : q ∈ N.entries := List.getElem?_mem hq
    obtain ⟨kn1, hkn1, hdk⟩ := hNkeys q hqmem
    obtain ⟨vn1, hvn1, hdv⟩ := hNvals q hqmem
    have e1 : kcs.int.Encode q.Key = .ok kn := hek
    have e2 : inner.encodeValue q.Value = .ok vn := hevq
    rw [e1] at hkn1
    rw [e2] at hvn1
    cases hkn1
    cases hvn1
    exact ⟨kn, vn, q, h0, h1, hq, hdk, hdv⟩
  have hres := resolver_int_keyed kcs doc inner va vnode hvk hvd N.entries hdecN
    (by rw [hvc1]; exact hlenN)
  obtain ⟨val, hval⟩ := hassert (.int (setAll (New Int A) N.entries))
  have hslot : valueSlot doc va vnode = .store val :=
    valueSlot_resolved doc va vnode _ val hV hvnull hres hval
  -- an entry of M with the key `key` is the entry holding `nested`
  have hunique : ∀ p ∈ M.entries, p.Key = key → p = ⟨key, nested⟩ :=
    fun p hp hpk => List.inj_on_of_nodup_map hM hp hmem hpk
  -- M is encoded
  have hencV : ∀ p ∈ M.entries, ∃ n, doc.encodeValue p.Value = .ok n := by
    intro p hp
    by_cases hpk : p.Key = key
    · rw [hunique p hp hpk]
      exact ⟨vnode, hev⟩
    · exact (hvals p hp hpk).imp fun _ h => h.1
  obtain ⟨nodes, hrun, hlen, hidx⟩ :=
    marshalLoop_ok doc M.entries (.mk MappingNode 0 "" "" [])
      (fun p hp => (hkeys p hp).imp fun _ h => h.1) hencV
  have hnode : ((Node.mk MappingNode 0 "" "" []).appendContent nodes).Content = nodes := by
    simp [Node.appendContent, Node.Content]
  -- and decoded pair by pair
  have hdec : DecodesTo doc va nodes
      (M.entries.map (fun p => if p.Key = key then ⟨key, val⟩ else p)) := by
    intro j hj
    rw [List.length_map] at hj
    obtain ⟨p, kn, vn, hp, h0, h1, hek, hevp⟩ := hidx j hj
    have hpmem : p ∈ M.entries := List.getElem?_mem hp
    obtain ⟨kn1, hkn1, hdk⟩ := hkeys p hpmem
    rw [hek] at hkn1
    cases hkn1
    refine ⟨kn, vn, (if p.Key = key then ⟨key, val⟩ else p), h0, h1, ?_, ?_, ?_⟩
    · rw [List.getElem?_map, hp]
      rfl
    · by_cases hpk : p.Key = key
      · rw [if_pos hpk, hdk, hpk]
      · rw [if_neg hpk, hdk]
    · by_cases hpk : p.Key = key
      · rw [if_pos hpk]
        have hpe := hunique p hpmem hpk
        rw [hpe] at hevp
        simp only at hevp
        rw [hev] at hevp
        cases hevp
        exact hslot
      · rw [if_neg hpk]
        obtain ⟨vn1, hvn1, hdv⟩ := hvals p hpmem hpk
        rw [hevp] at hvn1
        cases hvn1
        exact hdv
  have hlen1 : nodes.length
      = 2 * (M.entries.map (fun p => if p.Key = key then ⟨key, val⟩ else p)).length := by
    rw [List.length_map]
    exact hlen
  have hkeysEq : (M.entries.map (fun p => if p.Key = key then (⟨key, val⟩ : Pair K A) else p)).map
      Pair.Key = M.entries.map Pair.Key := by
    rw [List.map_map]
    apply List.map_congr_left
    intro p _
    by_cases hpk : p.Key = key
    · simp [hpk]
    · simp [hpk]
  refine ⟨(Node.mk MappingNode 0 "" "" []).appendContent nodes, val, hrun, ?_, hval, ?_, ?_⟩
  · rw [UnmarshalYAML_eq doc va target _ (by rfl), hnode,
      decodePairs_all doc va _ nodes _ hdec hlen1]
  · rw [entries_setAll]
    have hnil : (New Int A).entries = [] := rfl
    rw [hnil, foldl_upsert_of_nodup]
    · rfl
    · simpa [OrderedMap.KeysUnique] using hN
  · rw [UnmarshalYAML_eq doc va target _ (by rfl), hnode,
      decodePairs_all doc va _ nodes _ hdec hlen1]
    simp only
    rw [entries_setAll, lazyInit_entries, hempty, foldl_upsert_of_nodup]
    · rfl
    · rw [List.nil_append, hkeysEq]
      exact hM

/-- The node of a value that is nil or plain is stored back as that value by
lines 65-86: the null token gives the zero value, and otherwise the resolver
fails and the direct decode gives the value. -/
theorem valueSlot_of_plain {K A : Type} (doc : Yaml K A A) (va : ValueType A A) (v : A)
    (hV : va.isInterface = true) (h : PlainRoundTrip doc va v) :
    ∃ vn, doc.encodeValue v = .ok vn ∧ valueSlot doc va vn = .store v := by
  obtain ⟨vn, henc, hcase⟩ := h
  refine ⟨vn, henc, ?_⟩
  rcases hcase with ⟨hnull, hzero⟩ | ⟨hnotnull, hfail, hdec⟩
  · rw [hzero]
    exact valueSlot_null doc va vn hV hnull
  · have herr : (tryDecodeToOrderedMap (doc.decodeCandidate vn)).2 ≠ none :=
      (tryLoop_error (doc.decodeCandidate vn) (possibilities A)).1.mpr hfail
    cases hres : (tryDecodeToOrderedMap (doc.decodeCandidate vn)).2 with
    | none => exact absurd hres herr
    | some rerr =>
      rw [valueSlot_unresolved doc va vn rerr hV hnotnull hres, decodeDirect, hdec]

/-- C14, amended: nested round trip for the key type `int`. Let `M` have the
value type `any` and keys that convert to nodes which decode back to them,
and let it hold for `key` a value `nested` that the library encodes by
calling `MarshalYAML` of the `int`-keyed map `N`, whose keys likewise convert
to nodes which decode back to them; the node of `nested` is a mapping with
the children `MarshalYAML` produced, which the library decodes into a
candidate map by the candidate's `UnmarshalYAML`. Let every other value of
`M` and every value of `N` be nil or plain: it converts to a node that either
has the payload `null`, the value being nil, or has another payload, decodes
into none of the candidate maps and decodes back to the value. Then decoding
the encoding of `M` into an empty target returns nil and gives the entries of
`M` in order, the value for `key` being an `int`-keyed map with the entries
of `N` in the same order. -/
theorem nested_round_trip_int {K K1 A : Type} [DecidableEq K] (kcs : KeyCodecs)
    (doc : Yaml K A A) (inner : Yaml K1 A A) (va : ValueType A A)
    (M target : OrderedMap K A) (N : OrderedMap Int A) (key : K) (nested : A)
    (hV : va.isInterface = true)
    (hassert : ∀ c, ∃ val, va.assert c = some val)
    (hM : M.KeysUnique) (hN : N.KeysUnique) (hempty : target.entries = [])
    (hmem : (⟨key, nested⟩ : Pair K A) ∈ M.entries)
    (hkeys : ∀ p ∈ M.entries,
      ∃ kn, doc.encodeKey p.Key = .ok kn ∧ doc.decodeKey kn = .ok p.Key)
    (hvals : ∀ p ∈ M.entries, p.Key ≠ key → PlainRoundTrip doc va p.Value)
    (hNkeys : ∀ q ∈ N.entries,
      ∃ kn, kcs.int.Encode q.Key = .ok kn ∧ kcs.int.Decode kn = .ok q.Key)
    (hNvals : ∀ q ∈ N.entries, PlainRoundTrip inner va q.Value)
    (henc : ∀ node, candidateMarshal kcs inner (.int N) = (.node node, none) →
      ∃ vnode, doc.encodeValue nested = .ok vnode ∧ vnode.Kind = MappingNode ∧
        vnode.Value ≠ "null" ∧ vnode.Content = node.Content ∧
        Dispatches kcs doc inner va vnode) :
    ∃ node val, MarshalYAML doc (some M) = (.node node, none) ∧
      (UnmarshalYAML doc va target node).2 = .ok ∧
      va.assert (.int (setAll (New Int A) N.entries)) = some val ∧
      (setAll (New Int A) N.entries).entries = N.entries ∧
      (UnmarshalYAML doc va target node).1.entries
        = M.entries.map (fun p => if p.Key = key then ⟨key, val⟩ else p) :=
  nested_round_trip_of_slots kcs doc inner va M target N key nested hV hassert hM hN hempty
    hmem hkeys (fun p hp hne => valueSlot_of_plain doc va p.Value hV (hvals p hp hne))
    hNkeys (fun q hq => valueSlot_of_plain inner va q.Value hV (hNvals q hq)) henc

/-- C14 amended, in the model of the library: the map `m: {1: a, 2: b}`
holding an `int`-keyed map is encoded and decoded into a fresh map, which
then has for `m` an `int`-keyed map with the same entries. -/
theorem nested_round_trip_int_witness :
    ∃ node val, MarshalYAML (modelYaml 3) (some holdsInt) = (.node node, none) ∧
      (UnmarshalYAML (modelYaml 3) anyType (New String AnyValue) node).2 = .ok ∧
      anyType.assert (.int (setAll (New Int AnyValue) nestedEntries.entries)) = some val ∧
      (setAll (New Int AnyValue) nestedEntries.entries).entries = nestedEntries.entries ∧
      (UnmarshalYAML (modelYaml 3) anyType (New String AnyValue) node).1.entries
        = holdsInt.entries.map (fun p => if p.Key = "m" then ⟨"m", val⟩ else p) :=
  nested_round_trip_int modelKeys (modelYaml 3) (modelYaml 2) anyType holdsInt
    (New String AnyValue) nestedEntries "m" (.omap (.int nestedEntries))
    rfl (fun c => ⟨.omap c, rfl⟩)
    (by simp [OrderedMap.KeysUnique, OrderedMap.entries, holdsInt])
    (by simp [OrderedMap.KeysUnique, OrderedMap.entries, nestedEntries])
    rfl
    (List.mem_cons_self _ _)
    (fun p _ => ⟨textNode p.Key, rfl, rfl⟩)
    (by
      intro p hp hne
      have hp1 : p ∈ [(⟨"m", .omap (.int nestedEntries)⟩ : Pair String AnyValue)] := hp
      rw [List.mem_singleton] at hp1
      rw [hp1] at hne
      exact absurd rfl hne)
    (by
      intro q hq
      have hq1 : q ∈ [(⟨1, .text "a"⟩ : Pair Int AnyValue), ⟨2, .text "b"⟩] := hq
      simp only [List.mem_cons, List.mem_singleton, List.not_mem_nil, or_false] at hq1
      rcases hq1 with rfl | rfl
      · exact ⟨intNode "1", rfl, rfl⟩
      · exact ⟨intNode "2", rfl, rfl⟩)
    (by
      intro q hq
      have hq1 : q ∈ [(⟨1, .text "a"⟩ : Pair Int AnyValue), ⟨2, .text "b"⟩] := hq
      simp only [List.mem_cons, List.mem_singleton, List.not_mem_nil, or_false] at hq1
      rcases hq1 with rfl | rfl
      · refine ⟨textNode "a", rfl, Or.inr ⟨by decide, ?_, rfl⟩⟩
        intro f hf
        simp only [possibilities, List.mem_cons, List.mem_singleton, List.not_mem_nil,
          or_false] at hf
        rcases hf with rfl | rfl | rfl | rfl | rfl | rfl | rfl <;> decide
      · refine ⟨textNode "b", rfl, Or.inr ⟨by decide, ?_, rfl⟩⟩
        intro f hf
        simp only [possibilities, List.mem_cons, List.mem_singleton, List.not_mem_nil,
          or_false] at hf
        rcases hf with rfl | rfl | rfl | rfl | rfl | rfl | rfl <;> decide)
    (by
      intro node h
      have hv : (Node.mk MappingNode 0 "!!map" "" node.Content).Value ≠ "null" := by
        show "" ≠ "null"
        decide
      have ht : (Node.mk MappingNode 0 "!!map" "" node.Content).Tag ≠ "!!null" := by
        show "!!map" ≠ "!!null"
        decide
      refine ⟨.mk MappingNode 0 "!!map" "" node.Content, ?_, rfl, hv, rfl,
        modelYaml_dispatches 2 _ ht⟩
      show (match candidateMarshal modelKeys (modelYaml 2) (.int nestedEntries) with
        | (.node node, none) => Except.ok (Node.mk MappingNode 0 "!!map" "" node.Content)
        | (_, some err) => Except.error err
        | (_, none) => Except.error "MarshalYAML returned no node") = _
      rw [h])

end orderedmap
